import Mathlib

/-!
# Coin-hour allocation of `src/transaction/hours.go`

A shallow embedding of `DistributeSpendHours` and
`DistributeCoinHoursProportional`.  Values of Go type `uint64` are natural
numbers; every unchecked `uint64` operation of the source is written with an
explicit reduction modulo `2^64`.  A call either returns its value or stops
with a `Fault`: one of the errors the source returns, or a run-time panic.
-/

namespace Hours

/-- Number of values of a Go `uint64`. -/
def U64 : Nat := 2 ^ 64

/-- Number of non-negative values of a Go `int64`. -/
def I64 : Nat := 2 ^ 63

/-- Ways a call can stop without a value.  The first seven are the errors
returned by `DistributeCoinHoursProportional`; the next four are run-time
panics (integer division by zero, slice index out of range, the
`logger.Panicf` of `DistributeSpendHours`, and `makeslice: len out of range`).
The last one belongs to no run of the program: it is how the checked variant
`DistributeSpendHoursChecked` reports a 64-bit operation that would wrap. -/
inductive Fault where
  | emptyCoins
  | zeroCoin
  | addOverflow
  | int64Range
  | fracNotUint64
  | assignedExceeds
  | remainingExceeds
  | divByZero
  | indexOutOfRange
  | calcMismatch
  | makeSliceLen
  | wrapped
  deriving DecidableEq, Repr

deriving instance DecidableEq for Except

/-- The faults that are ordinary returned errors (`return nil, err`). -/
def Fault.isError : Fault → Bool
  | .emptyCoins | .zeroCoin | .addOverflow | .int64Range
  | .fracNotUint64 | .assignedExceeds | .remainingExceeds => true
  | .divByZero | .indexOutOfRange | .calcMismatch | .makeSliceLen | .wrapped => false

/-- Go `a - b` on `uint64` operands (wraps below zero). -/
def subU64 (a b : Nat) : Nat := (a + U64 - b % U64) % U64

/-- Go `a + b` on `uint64` operands (wraps). -/
def addU64 (a b : Nat) : Nat := (a + b) % U64

/-- Go `a * b` on `uint64` operands (wraps). -/
def mulU64 (a b : Nat) : Nat := (a * b) % U64

/-- The loop `for extraHours > 0 { addrHours[i] = addrHours[i] + 1; i++; extraHours-- }`
(hours.go 52-56, and again 220-224): the first argument is the counter that
is decremented, the second the index `i`. -/
def incrLoop : Nat → Nat → List Nat → Except Fault (List Nat)
  | 0, _, addrHours => .ok addrHours
  | extra + 1, i, addrHours =>
    match addrHours[i]? with
    | none => .error .indexOutOfRange
    | some a => incrLoop extra (i + 1) (addrHours.set i (addU64 a 1))

/-- The loop `for _, h := range addrHours { spendHours += h }` (hours.go 60-62). -/
def sumLoop (addrHours : List Nat) : Nat :=
  addrHours.foldl (fun spendHours h => addU64 spendHours h) 0

/-- The check that the run-time makes on `make([]uint64, n)` (`makeslice`, on a
64-bit platform): the length, an `int`, must not be negative, and the
`8 * n` bytes asked for must neither overflow a `uintptr` nor exceed the
run-time's allocation limit `maxAlloc`.  Otherwise `make` panics with
`makeslice: len out of range`. -/
def makesliceOK (maxAlloc n : Nat) : Bool :=
  decide (n < I64 ∧ 8 * n < U64 ∧ 8 * n ≤ maxAlloc)

/-- Embedding of `DistributeSpendHours` (hours.go 24-69).  The fee function
`fee.RequiredFee` and the constant `params.UserVerifyTxn.BurnFactor` live
outside the file and are parameters, and so is the allocation limit
`maxAlloc` of the run-time.  The call can panic in four ways: division by
`nAddrs = 0` (line 41), a length that `make` refuses (line 45), an index past
the end of `addrHours` (line 53) and the final consistency check (line 65).
Running out of memory on a length that `make` accepts is outside the model. -/
def DistributeSpendHours (maxAlloc : Nat) (RequiredFee : Nat → Nat → Nat) (BurnFactor : Nat)
    (inputHours nAddrs : Nat) (haveChange : Bool) :
    Except Fault (Nat × List Nat × Nat) :=
  let feeHours := RequiredFee inputHours BurnFactor
  let remainingHours := subU64 inputHours feeHours
  let changeHours :=
    if haveChange then
      let half := remainingHours / 2
      if remainingHours % 2 = 1 then addU64 half 1 else half
    else 0
  let remainingAddrHours := subU64 remainingHours changeHours
  if nAddrs = 0 then .error .divByZero else
  let addrHoursShare := remainingAddrHours / nAddrs
  if ¬ makesliceOK maxAlloc nAddrs then .error .makeSliceLen else
  let addrHours := List.replicate nAddrs addrHoursShare
  let extraHours := subU64 remainingAddrHours (mulU64 addrHoursShare nAddrs)
  match incrLoop extraHours 0 addrHours with
  | .error e => .error e
  | .ok addrHours =>
    let spendHours := addU64 (sumLoop addrHours) changeHours
    if spendHours ≠ remainingHours then .error .calcMismatch
    else .ok (changeHours, addrHours, spendHours)

/-- Checked `a - b` on `uint64` operands: the difference, or `wrapped` when
the Go operation would wrap below zero. -/
def subChecked (a b : Nat) : Except Fault Nat :=
  if b ≤ a then .ok (a - b) else .error .wrapped

/-- Checked `a + b` on `uint64` operands: the sum, or `wrapped` when the Go
operation would wrap. -/
def addChecked (a b : Nat) : Except Fault Nat :=
  if a + b < U64 then .ok (a + b) else .error .wrapped

/-- Checked `a * b` on `uint64` operands: the product, or `wrapped` when the Go
operation would wrap. -/
def mulChecked (a b : Nat) : Except Fault Nat :=
  if a * b < U64 then .ok (a * b) else .error .wrapped

/-- The loop of `incrLoop` (hours.go 52-56) with its addition checked. -/
def incrLoopChecked : Nat → Nat → List Nat → Except Fault (List Nat)
  | 0, _, addrHours => .ok addrHours
  | extra + 1, i, addrHours =>
    match addrHours[i]? with
    | none => .error .indexOutOfRange
    | some a =>
      match addChecked a 1 with
      | .error e => .error e
      | .ok a1 => incrLoopChecked extra (i + 1) (addrHours.set i a1)

/-- The loop of `sumLoop` (hours.go 60-62) with its addition checked; the
second argument is the running `spendHours`. -/
def sumLoopChecked : List Nat → Nat → Except Fault Nat
  | [], spendHours => .ok spendHours
  | h :: rest, spendHours =>
    match addChecked spendHours h with
    | .error e => .error e
    | .ok spendHours => sumLoopChecked rest spendHours

/-- `DistributeSpendHours` (hours.go 24-69) with every unsigned 64-bit
operation checked: the same statements in the same order, but a subtraction,
increment, product or addition that would wrap stops the call with `wrapped`
where `DistributeSpendHours` goes on with the wrapped value. -/
def DistributeSpendHoursChecked (maxAlloc : Nat) (RequiredFee : Nat → Nat → Nat)
    (BurnFactor : Nat) (inputHours nAddrs : Nat) (haveChange : Bool) :
    Except Fault (Nat × List Nat × Nat) :=
  let feeHours := RequiredFee inputHours BurnFactor
  match subChecked inputHours feeHours with
  | .error e => .error e
  | .ok remainingHours =>
    let changeStep : Except Fault Nat :=
      if haveChange then
        let half := remainingHours / 2
        if remainingHours % 2 = 1 then addChecked half 1 else .ok half
      else .ok 0
    match changeStep with
    | .error e => .error e
    | .ok changeHours =>
      match subChecked remainingHours changeHours with
      | .error e => .error e
      | .ok remainingAddrHours =>
        if nAddrs = 0 then .error .divByZero else
        let addrHoursShare := remainingAddrHours / nAddrs
        if ¬ makesliceOK maxAlloc nAddrs then .error .makeSliceLen else
        let addrHours := List.replicate nAddrs addrHoursShare
        match mulChecked addrHoursShare nAddrs with
        | .error e => .error e
        | .ok product =>
          match subChecked remainingAddrHours product with
          | .error e => .error e
          | .ok extraHours =>
            match incrLoopChecked extraHours 0 addrHours with
            | .error e => .error e
            | .ok addrHours =>
              match sumLoopChecked addrHours 0 with
              | .error e => .error e
              | .ok partialSum =>
                match addChecked partialSum changeHours with
                | .error e => .error e
                | .ok spendHours =>
                  if spendHours ≠ remainingHours then .error .calcMismatch
                  else .ok (changeHours, addrHours, spendHours)

/-- A fee function in the shape of the collaborator: the hours divided by the
burn factor, rounded up.  Used to evaluate the embedding on examples. -/
def ceilFee (hours burnFactor : Nat) : Nat :=
  hours / burnFactor + (if hours % burnFactor = 0 then 0 else 1)

/-- Modelled from the spec: `mathutil.AddUint64` is not among the sources.
Spec 4.1, `addChecked(a, b) -> HourAmount | OverflowFault`: the sum, or an
error instead of wrapping when it does not fit 64 unsigned bits. -/
def AddUint64 (a b : Nat) : Except Fault Nat :=
  if a + b < U64 then .ok (a + b) else .error .addOverflow

/-- Modelled from the spec: `mathutil.Uint64ToInt64` is not among the sources.
Spec 4.1, `toSignedWide(a) -> SignedWide | RangeFault`: the same number as a
signed 64-bit value, or an error when it is above `2^63 - 1`. -/
def Uint64ToInt64 (a : Nat) : Except Fault Int :=
  if a < I64 then .ok (a : Int) else .error .int64Range

/-- The struct `unsortableHighToLowUint64` (hours.go 72-75). -/
structure unsortableHighToLowUint64 where
  items : List Nat
  indices : List Nat
  deriving DecidableEq, Repr

/-- Embedding of `newUnsortableHighToLowUint64` (hours.go 77-89): a copy of the
items, and `indices[i] = i`. -/
def newUnsortableHighToLowUint64 (items : List Nat) : unsortableHighToLowUint64 :=
  { items := items, indices := List.range items.length }

/-- Exchange of the entries at `i` and `j` of a slice. -/
def swapAt (xs : List Nat) (i j : Nat) : List Nat :=
  (xs.set i (xs.getD j 0)).set j (xs.getD i 0)

/-- Embedding of the method `Swap` (hours.go 91-94). -/
def unsortableHighToLowUint64.Swap (u : unsortableHighToLowUint64) (i j : Nat) :
    unsortableHighToLowUint64 :=
  { items := swapAt u.items i j, indices := swapAt u.indices i j }

/-- Embedding of the method `Less` (hours.go 96-98). -/
def unsortableHighToLowUint64.Less (u : unsortableHighToLowUint64) (i j : Nat) : Bool :=
  decide (u.items.getD i 0 > u.items.getD j 0)

/-- Embedding of the method `Len` (hours.go 100-102). -/
def unsortableHighToLowUint64.Len (u : unsortableHighToLowUint64) : Nat :=
  u.items.length

/-- Inner loop of an insertion sort driven by `Less` and `Swap`:
`for j := i; j > 0 && data.Less(j, j-1); j-- { data.Swap(j, j-1) }`. -/
def insertDown (u : unsortableHighToLowUint64) : Nat → unsortableHighToLowUint64
  | 0 => u
  | j + 1 => if u.Less (j + 1) j then insertDown (u.Swap (j + 1) j) j else u

/-- Outer loop of the insertion sort: the first argument counts the positions
still to be inserted, the second is the position `i` inserted next. -/
def insertFrom : Nat → Nat → unsortableHighToLowUint64 → unsortableHighToLowUint64
  | 0, _, u => u
  | k + 1, i, u => insertFrom k (i + 1) (insertDown u i)

/-- The call `sort.Stable(sortedCoins)` (hours.go 145).  `sort.Stable` is Go's
standard library; it reads the data through `Len` and `Less` only and moves it
through `Swap` only, and the order it leaves is the one stable order for
`Less`.  It is taken here as the straight insertion sort that the library
runs on every block of at most 20 elements. -/
def sortStable (u : unsortableHighToLowUint64) : unsortableHighToLowUint64 :=
  insertFrom (u.Len - 1) 1 u

/-- The validation loop over `coins` (hours.go 113-130): the running `total`
and the `coinsInt` built so far (in order) are carried along. -/
def sumCoins : List Nat → Nat → List Int → Except Fault (Nat × List Int)
  | [], total, coinsInt => .ok (total, coinsInt)
  | c :: rest, total, coinsInt =>
    if c = 0 then .error .zeroCoin else
    match AddUint64 total c with
    | .error e => .error e
    | .ok total =>
      match Uint64ToInt64 c with
      | .error e => .error e
      | .ok cInt64 => sumCoins rest total (coinsInt ++ [cInt64])

/-- The loop `for i := uint64(0); i < hours; i++ { addrHours[sortedCoins.indices[i]] = 1 }`
(hours.go 147-149): the first argument is `hours - i`, the second is `i`. -/
def grantTop (indices : List Nat) : Nat → Nat → List Nat → Except Fault (List Nat)
  | 0, _, addrHours => .ok addrHours
  | k + 1, i, addrHours =>
    match indices[i]? with
    | none => .error .indexOutOfRange
    | some idx =>
      if idx < addrHours.length then grantTop indices k (i + 1) (addrHours.set idx 1)
      else .error .indexOutOfRange

/-- The method `IsUint64` of `big.Int`. -/
def IsUint64 (x : Int) : Bool := decide (0 ≤ x ∧ x < (U64 : Int))

/-- The proportional loop `for i, c := range coinsInt` (hours.go 171-195); the
index `i`, the slice `addrHours` and `assignedHours` are carried along. -/
def propLoop (hoursInt totalInt : Int) :
    List Int → Nat → List Nat → Nat → Except Fault (List Nat × Nat)
  | [], _, addrHours, assignedHours => .ok (addrHours, assignedHours)
  | c :: rest, i, addrHours, assignedHours =>
    let num := c * hoursInt
    if totalInt = 0 then .error .divByZero else
    let fracInt := num / totalInt
    if ¬ IsUint64 fracInt then .error .fracNotUint64 else
    let fracHours := fracInt.toNat
    match addrHours[i]? with
    | none => .error .indexOutOfRange
    | some a =>
      match AddUint64 a fracHours with
      | .error e => .error e
      | .ok s =>
        match AddUint64 assignedHours fracHours with
        | .error e => .error e
        | .ok assignedHours => propLoop hoursInt totalInt rest (i + 1) (addrHours.set i s) assignedHours

/-- The first remainder pass (hours.go 209-216):
`for remainingHours > 0 && i < len(coins)`.  The first argument is
`len(coins) - i`, the second is `i`; the slice and the hours still to hand
out are returned. -/
def zeroPass : Nat → Nat → Nat → List Nat → Except Fault (List Nat × Nat)
  | 0, _, remainingHours, addrHours => .ok (addrHours, remainingHours)
  | k + 1, i, remainingHours, addrHours =>
    if remainingHours = 0 then .ok (addrHours, remainingHours) else
    match addrHours[i]? with
    | none => .error .indexOutOfRange
    | some a =>
      if a = 0 then zeroPass k (i + 1) (subU64 remainingHours 1) (addrHours.set i 1)
      else zeroPass k (i + 1) remainingHours addrHours

/-- Embedding of `DistributeCoinHoursProportional` (hours.go 105-227).  A Go
slice has fewer than `2^63` elements, so `uint64(len(coins))` is the length.
The slices the function makes have the length of `coins`, an existing slice
whose elements are as large as theirs, so `make` accepts the length. -/
def DistributeCoinHoursProportional (coins : List Nat) (hours : Nat) :
    Except Fault (List Nat) :=
  if coins.length = 0 then .error .emptyCoins else
  match sumCoins coins 0 [] with
  | .error e => .error e
  | .ok (total, coinsInt) =>
    let addrHours := List.replicate coins.length 0
    let step : Except Fault (List Nat × Nat) :=
      if hours ≥ coins.length then
        .ok (List.replicate coins.length 1, subU64 hours coins.length)
      else if hours > 0 then
        let sortedCoins := sortStable (newUnsortableHighToLowUint64 coins)
        match grantTop sortedCoins.indices hours 0 addrHours with
        | .error e => .error e
        | .ok addrHours => .ok (addrHours, 0)
      else .ok (addrHours, hours)
    match step with
    | .error e => .error e
    | .ok (addrHours, hours) =>
      if hours = 0 then .ok addrHours else
      match Uint64ToInt64 total with
      | .error e => .error e
      | .ok totalInt =>
        match Uint64ToInt64 hours with
        | .error e => .error e
        | .ok hoursInt =>
          match propLoop hoursInt totalInt coinsInt 0 addrHours 0 with
          | .error e => .error e
          | .ok (addrHours, assignedHours) =>
            if hours < assignedHours then .error .assignedExceeds else
            let remainingHours := subU64 hours assignedHours
            if remainingHours > coins.length then .error .remainingExceeds else
            match zeroPass coins.length 0 remainingHours addrHours with
            | .error e => .error e
            | .ok (addrHours, remainingHours) => incrLoop remainingHours 0 addrHours

/-- Hours handed to the change output when `remainingHours` are left after
the fee (hours.go 28-37, over the natural numbers). -/
def changeOf (haveChange : Bool) (remainingHours : Nat) : Nat :=
  if haveChange then remainingHours / 2 + remainingHours % 2 else 0

/-- The sorter holding the given (item, index) pairs, in order. -/
def ofPairs (ps : List (Nat × Nat)) : unsortableHighToLowUint64 :=
  { items := ps.map Prod.fst, indices := ps.map Prod.snd }

/-- What `insertDown` does to the pairs left of the inserted pair `p`, listed
from right to left: `p` moves past every pair with a smaller item. -/
def bubble (p : Nat × Nat) : List (Nat × Nat) → List (Nat × Nat)
  | [] => [p]
  | q :: qs => if p.1 > q.1 then q :: bubble p qs else p :: q :: qs

/-- What `insertFrom` does to the pairs: `done` is the sorted part from right
to left, the second argument the pairs still to insert. -/
def insertAll (done : List (Nat × Nat)) : List (Nat × Nat) → List (Nat × Nat)
  | [] => done.reverse
  | p :: rest => insertAll (bubble p done) rest

/-- Stable descending order of (item, index) pairs: a larger item first, and
among equal items the smaller index first. -/
def Before (p q : Nat × Nat) : Prop :=
  p.1 > q.1 ∨ (p.1 = q.1 ∧ p.2 < q.2)

/-- What `grantTop` does to the slice: the entries at the listed indices are
set to 1, one after the other. -/
def markAll (idxs : List Nat) (addrHours : List Nat) : List Nat :=
  idxs.foldl (fun l idx => l.set idx 1) addrHours

/-- One guaranteed hour plus the floor of the proportional share of `h`
further hours, for every coin. -/
def shares (coins : List Nat) (h : Nat) : List Nat :=
  coins.map (fun c => 1 + c * h / coins.sum)

/-- Sum of the floors of the proportional shares of `h` hours. -/
def floorSum (coins : List Nat) (h : Nat) : Nat :=
  (coins.map (fun c => c * h / coins.sum)).sum

/-- One more hour for each of the first `extra` entries. -/
def bump (extra : Nat) (l : List Nat) : List Nat :=
  (l.take extra).map (fun a => a + 1) ++ l.drop extra

/-- `DistributeCoinHoursProportional` with the first remainder pass
(hours.go 209-216) taken out: after the checks on the remaining hours the
second pass (hours.go 219-224) starts at once.  Everything else is the
embedding of the source unchanged. -/
def DistributeCoinHoursProportionalNoZeroPass (coins : List Nat) (hours : Nat) :
    Except Fault (List Nat) :=
  if coins.length = 0 then .error .emptyCoins else
  match sumCoins coins 0 [] with
  | .error e => .error e
  | .ok (total, coinsInt) =>
    let addrHours := List.replicate coins.length 0
    let step : Except Fault (List Nat × Nat) :=
      if hours ≥ coins.length then
        .ok (List.replicate coins.length 1, subU64 hours coins.length)
      else if hours > 0 then
        let sortedCoins := sortStable (newUnsortableHighToLowUint64 coins)
        match grantTop sortedCoins.indices hours 0 addrHours with
        | .error e => .error e
        | .ok addrHours => .ok (addrHours, 0)
      else .ok (addrHours, hours)
    match step with
    | .error e => .error e
    | .ok (addrHours, hours) =>
      if hours = 0 then .ok addrHours else
      match Uint64ToInt64 total with
      | .error e => .error e
      | .ok totalInt =>
        match Uint64ToInt64 hours with
        | .error e => .error e
        | .ok hoursInt =>
          match propLoop hoursInt totalInt coinsInt 0 addrHours 0 with
          | .error e => .error e
          | .ok (addrHours, assignedHours) =>
            if hours < assignedHours then .error .assignedExceeds else
            let remainingHours := subU64 hours assignedHours
            if remainingHours > coins.length then .error .remainingExceeds else
            incrLoop remainingHours 0 addrHours

/-! ## Arithmetic of the 64-bit operations -/

theorem subU64_of_le {a b : Nat} (hb : b ≤ a) (ha : a < U64) : subU64 a b = a - b := by
  unfold subU64
  have hb' : b % U64 = b := Nat.mod_eq_of_lt (lt_of_le_of_lt hb ha)
  rw [hb']
  have h1 : a + U64 - b = (a - b) + U64 := by omega
  rw [h1, Nat.add_mod_right]
  exact Nat.mod_eq_of_lt (by omega)

theorem addU64_of_lt {a b : Nat} (h : a + b < U64) : addU64 a b = a + b := by
  unfold addU64
  exact Nat.mod_eq_of_lt h

theorem mulU64_of_lt {a b : Nat} (h : a * b < U64) : mulU64 a b = a * b := by
  unfold mulU64
  exact Nat.mod_eq_of_lt h

theorem foldl_addU64_eq (l : List Nat) :
    ∀ acc : Nat, acc + l.sum < U64 →
      l.foldl (fun spendHours h => addU64 spendHours h) acc = acc + l.sum := by
  induction l with
  | nil => intro acc _; simp
  | cons x xs ih =>
    intro acc h
    simp only [List.sum_cons] at h
    simp only [List.foldl_cons, List.sum_cons]
    rw [addU64_of_lt (by omega), ih (acc + x) (by omega)]
    omega

theorem sumLoop_eq {l : List Nat} (h : l.sum < U64) : sumLoop l = l.sum := by
  unfold sumLoop
  rw [foldl_addU64_eq l 0 (by omega)]
  omega

/-! ## The increment loop -/

/-- Started at index `pre.length`, the increment loop adds one to the next
`extra` entries and leaves the others alone. -/
theorem incrLoop_append :
    ∀ (extra : Nat) (pre xs : List Nat), extra ≤ xs.length →
      incrLoop extra pre.length (pre ++ xs)
        = .ok (pre ++ (xs.take extra).map (fun a => addU64 a 1) ++ xs.drop extra) := by
  intro extra
  induction extra with
  | zero => intro pre xs _; simp [incrLoop]
  | succ e ih =>
    intro pre xs h
    cases xs with
    | nil => simp at h
    | cons x xs =>
      simp only [List.length_cons, Nat.add_le_add_iff_right] at h
      have hget : (pre ++ x :: xs)[pre.length]? = some x := by
        rw [List.getElem?_append_right (le_refl _)]; simp
      have hset : (pre ++ x :: xs).set pre.length (addU64 x 1)
          = (pre ++ [addU64 x 1]) ++ xs := by simp
      have hlen : (pre ++ [addU64 x 1]).length = pre.length + 1 := by simp
      unfold incrLoop
      rw [hget]
      simp only
      rw [hset, ← hlen, ih (pre ++ [addU64 x 1]) xs h]
      simp

/-- Past the end of the slice the increment loop panics. -/
theorem incrLoop_short :
    ∀ (extra : Nat) (pre xs : List Nat), xs.length < extra →
      incrLoop extra pre.length (pre ++ xs) = .error .indexOutOfRange := by
  intro extra
  induction extra with
  | zero => intro pre xs h; simp at h
  | succ e ih =>
    intro pre xs h
    cases xs with
    | nil => simp [incrLoop]
    | cons x xs =>
      simp only [List.length_cons, Nat.add_lt_add_iff_right] at h
      have hget : (pre ++ x :: xs)[pre.length]? = some x := by
        rw [List.getElem?_append_right (le_refl _)]; simp
      have hset : (pre ++ x :: xs).set pre.length (addU64 x 1)
          = (pre ++ [addU64 x 1]) ++ xs := by simp
      have hlen : (pre ++ [addU64 x 1]).length = pre.length + 1 := by simp
      unfold incrLoop
      rw [hget]
      simp only
      rw [hset, ← hlen, ih (pre ++ [addU64 x 1]) xs h]

theorem incrLoop_zero_start (extra : Nat) (xs : List Nat) (h : extra ≤ xs.length) :
    incrLoop extra 0 xs
      = .ok ((xs.take extra).map (fun a => addU64 a 1) ++ xs.drop extra) := by
  have := incrLoop_append extra [] xs h
  simpa using this

/-- Entry `i` of a block of `r` copies of `b + 1` followed by copies of `b`. -/
theorem getElem?_two_blocks (r m b i : Nat) (hi : i < r + m) :
    (List.replicate r (b + 1) ++ List.replicate m b)[i]?
      = some (if i < r then b + 1 else b) := by
  by_cases h : i < r
  · rw [List.getElem?_append_left (by simpa using h)]
    simp [h]
  · rw [List.getElem?_append_right (by simpa using h)]
    simp only [List.length_replicate, if_neg h]
    rw [List.getElem?_replicate]
    have : i - r < m := by omega
    simp [this]

/-! ## `DistributeSpendHours` in closed form -/

/-- Sum of the shares of `A` hours among `n` destinations. -/
theorem two_blocks_sum (A n : Nat) (hn : 1 ≤ n) :
    (List.replicate (A % n) (A / n + 1) ++ List.replicate (n - A % n) (A / n)).sum = A := by
  have hmodlt : A % n < n := Nat.mod_lt _ (by omega)
  simp only [List.sum_append, List.sum_replicate, smul_eq_mul]
  have h3 : (n - A % n) * (A / n) + A % n * (A / n) = n * (A / n) := by
    rw [← Nat.add_mul]; congr 1; omega
  have h4 := Nat.div_add_mod A n
  rw [Nat.mul_add]
  omega

theorem changeOf_le (haveChange : Bool) (r : Nat) : changeOf haveChange r ≤ r := by
  unfold changeOf
  split <;> omega

/-- With a fee that does not exceed the input and a number of destinations
that is at least one and that `make` accepts, `DistributeSpendHours` returns,
and its three results are the ones computed over the natural numbers. -/
theorem DistributeSpendHours_closed (maxAlloc : Nat) (RequiredFee : Nat → Nat → Nat)
    (BurnFactor : Nat) (inputHours nAddrs : Nat) (haveChange : Bool)
    (hin : inputHours < U64) (hn : 1 ≤ nAddrs)
    (hmake : makesliceOK maxAlloc nAddrs = true)
    (hfee : RequiredFee inputHours BurnFactor ≤ inputHours) :
    DistributeSpendHours maxAlloc RequiredFee BurnFactor inputHours nAddrs haveChange
      = .ok (changeOf haveChange (inputHours - RequiredFee inputHours BurnFactor),
          List.replicate
              ((inputHours - RequiredFee inputHours BurnFactor
                - changeOf haveChange (inputHours - RequiredFee inputHours BurnFactor)) % nAddrs)
              ((inputHours - RequiredFee inputHours BurnFactor
                - changeOf haveChange (inputHours - RequiredFee inputHours BurnFactor)) / nAddrs + 1)
            ++ List.replicate
              (nAddrs - (inputHours - RequiredFee inputHours BurnFactor
                - changeOf haveChange (inputHours - RequiredFee inputHours BurnFactor)) % nAddrs)
              ((inputHours - RequiredFee inputHours BurnFactor
                - changeOf haveChange (inputHours - RequiredFee inputHours BurnFactor)) / nAddrs),
          inputHours - RequiredFee inputHours BurnFactor) := by
  generalize hR : inputHours - RequiredFee inputHours BurnFactor = R
  have hRlt : R < U64 := by omega
  have hrem : subU64 inputHours (RequiredFee inputHours BurnFactor) = R := by
    rw [subU64_of_le hfee hin, hR]
  have hch : (if haveChange = true then
        (if R % 2 = 1 then addU64 (R / 2) 1 else R / 2) else 0) = changeOf haveChange R := by
    unfold changeOf
    cases haveChange
    · simp
    · simp only [if_true]
      split
      · rw [addU64_of_lt (by omega)]; omega
      · omega
  have hcle := changeOf_le haveChange R
  generalize hC : changeOf haveChange R = C at hch hcle
  generalize hA : R - C = A
  have hAlt : A < U64 := by omega
  have hsubA : subU64 R C = A := by rw [subU64_of_le hcle hRlt, hA]
  have hmul : A / nAddrs * nAddrs ≤ A := Nat.div_mul_le_self A nAddrs
  have hdm : A / nAddrs * nAddrs + A % nAddrs = A := by
    rw [Nat.mul_comm]; exact Nat.div_add_mod A nAddrs
  have hextra : subU64 A (mulU64 (A / nAddrs) nAddrs) = A % nAddrs := by
    rw [mulU64_of_lt (by omega), subU64_of_le hmul hAlt]
    omega
  have hmodlt : A % nAddrs < nAddrs := Nat.mod_lt _ (by omega)
  have hbase : A / nAddrs + 1 < U64 ∨ A % nAddrs = 0 := by
    by_cases h0 : A % nAddrs = 0
    · exact Or.inr h0
    · left
      have h2 : 2 ≤ nAddrs := by omega
      have : A / nAddrs * 2 ≤ A / nAddrs * nAddrs := Nat.mul_le_mul_left _ h2
      have hU : U64 = 18446744073709551616 := by norm_num [U64]
      omega
  have hloop : incrLoop (A % nAddrs) 0 (List.replicate nAddrs (A / nAddrs))
      = .ok (List.replicate (A % nAddrs) (A / nAddrs + 1)
          ++ List.replicate (nAddrs - A % nAddrs) (A / nAddrs)) := by
    rw [incrLoop_zero_start _ _ (by simp; omega)]
    congr 1
    rw [List.take_replicate, List.drop_replicate, List.map_replicate,
      Nat.min_eq_left (le_of_lt hmodlt)]
    rcases hbase with hb | hb
    · rw [addU64_of_lt (by omega)]
    · rw [hb]; simp
  have hsum := two_blocks_sum A nAddrs hn
  unfold DistributeSpendHours
  simp only [hrem, hch, hsubA, hextra, hloop, hmake, not_true_eq_false, if_false]
  rw [if_neg (by omega), sumLoop_eq (by rw [hsum]; exact hAlt), hsum,
    addU64_of_lt (by omega)]
  have : A + C = R := by omega
  simp [this]

/-- A length that `make` refuses makes `DistributeSpendHours` panic. -/
theorem DistributeSpendHours_refused (maxAlloc : Nat) (RequiredFee : Nat → Nat → Nat)
    (BurnFactor : Nat) (inputHours nAddrs : Nat) (haveChange : Bool)
    (hn : 1 ≤ nAddrs) (hmake : makesliceOK maxAlloc nAddrs = false) :
    DistributeSpendHours maxAlloc RequiredFee BurnFactor inputHours nAddrs haveChange
      = .error .makeSliceLen := by
  unfold DistributeSpendHours
  simp only [hmake]
  rw [if_neg (by omega)]
  simp

/-- Without a destination `DistributeSpendHours` panics on the division. -/
theorem DistributeSpendHours_no_dest (maxAlloc : Nat) (RequiredFee : Nat → Nat → Nat)
    (BurnFactor : Nat) (inputHours : Nat) (haveChange : Bool) :
    DistributeSpendHours maxAlloc RequiredFee BurnFactor inputHours 0 haveChange
      = .error .divByZero := by
  simp [DistributeSpendHours]

/-- A call of `DistributeSpendHours` that returns had at least one destination
and a length that `make` accepts. -/
theorem DistributeSpendHours_ok_inv {maxAlloc : Nat} {RequiredFee : Nat → Nat → Nat}
    {BurnFactor inputHours nAddrs : Nat} {haveChange : Bool} {res : Nat × List Nat × Nat}
    (hres : DistributeSpendHours maxAlloc RequiredFee BurnFactor inputHours nAddrs haveChange
      = .ok res) :
    1 ≤ nAddrs ∧ makesliceOK maxAlloc nAddrs = true := by
  rcases Nat.eq_zero_or_pos nAddrs with h0 | hpos
  · subst h0
    rw [DistributeSpendHours_no_dest] at hres
    exact absurd hres (by simp)
  · refine ⟨hpos, ?_⟩
    cases hm : makesliceOK maxAlloc nAddrs with
    | true => rfl
    | false =>
      rw [DistributeSpendHours_refused maxAlloc RequiredFee BurnFactor inputHours nAddrs
        haveChange hpos hm] at hres
      exact absurd hres (by simp)
/-! ## The validation loop -/

/-- Coins the validation loop accepts from a running total: every coin is
positive and fits a signed 64-bit value, and the sum fits 64 unsigned bits. -/
theorem sumCoins_ok :
    ∀ (coins : List Nat) (total : Nat) (coinsInt : List Int),
      (∀ c ∈ coins, 0 < c ∧ c < I64) → total + coins.sum < U64 →
      sumCoins coins total coinsInt
        = .ok (total + coins.sum, coinsInt ++ coins.map (fun (c : Nat) => (c : Int))) := by
  intro coins
  induction coins with
  | nil => intro total coinsInt _ _; simp [sumCoins]
  | cons c rest ih =>
    intro total coinsInt hall hsum
    have hc := hall c (List.mem_cons_self _ _)
    simp only [List.sum_cons] at hsum
    have hne : c ≠ 0 := by omega
    have hadd : total + c < U64 := by omega
    unfold sumCoins
    simp only [hne, if_false, AddUint64, hadd, if_true, Uint64ToInt64, hc.2]
    rw [ih (total + c) _ (fun x hx => hall x (List.mem_cons_of_mem _ hx)) (by omega)]
    simp [Nat.add_assoc]

/-- Coins the validation loop rejects: it stops with one of its three errors. -/
theorem sumCoins_error :
    ∀ (coins : List Nat) (total : Nat) (coinsInt : List Int), total < U64 →
      ¬ ((∀ c ∈ coins, 0 < c ∧ c < I64) ∧ total + coins.sum < U64) →
      ∃ e, sumCoins coins total coinsInt = .error e
        ∧ (e = .zeroCoin ∨ e = .addOverflow ∨ e = .int64Range) := by
  intro coins
  induction coins with
  | nil =>
    intro total coinsInt ht h
    exact absurd ⟨fun c hc => absurd hc (List.not_mem_nil c), by simpa using ht⟩ h
  | cons c rest ih =>
    intro total coinsInt _ h
    unfold sumCoins
    by_cases hc0 : c = 0
    · exact ⟨.zeroCoin, by simp [hc0], Or.inl rfl⟩
    by_cases hadd : total + c < U64
    · by_cases hc63 : c < I64
      · simp only [hc0, if_false, AddUint64, hadd, if_true, Uint64ToInt64, hc63]
        apply ih _ _ hadd
        intro hrest
        apply h
        refine ⟨?_, ?_⟩
        · intro x hx
          rcases List.mem_cons.mp hx with rfl | hx
          · exact ⟨by omega, hc63⟩
          · exact hrest.1 x hx
        · simp only [List.sum_cons]; have := hrest.2; omega
      · exact ⟨.int64Range, by simp [hc0, AddUint64, hadd, Uint64ToInt64, hc63],
          Or.inr (Or.inr rfl)⟩
    · exact ⟨.addOverflow, by simp [hc0, AddUint64, hadd], Or.inr (Or.inl rfl)⟩
/-! ## Rejected inputs of `DistributeCoinHoursProportional` -/

theorem DistributeCoinHoursProportional_nil (hours : Nat) :
    DistributeCoinHoursProportional [] hours = .error .emptyCoins := by
  simp [DistributeCoinHoursProportional]

/-- A non-empty input that fails the validation loop is rejected with one of
the loop's three errors, whatever the hours. -/
theorem DistributeCoinHoursProportional_invalid (coins : List Nat) (hours : Nat)
    (hne : coins ≠ [])
    (hbad : ¬ ((∀ c ∈ coins, 0 < c ∧ c < I64) ∧ coins.sum < U64)) :
    ∃ e, DistributeCoinHoursProportional coins hours = .error e
      ∧ (e = .zeroCoin ∨ e = .addOverflow ∨ e = .int64Range) := by
  have hlen : coins.length ≠ 0 := by
    intro h; exact hne (List.length_eq_zero.mp h)
  obtain ⟨e, he, hk⟩ := sumCoins_error coins 0 [] (by decide) (by simpa using hbad)
  refine ⟨e, ?_, hk⟩
  unfold DistributeCoinHoursProportional
  rw [if_neg hlen, he]
/-! ## The stable sort through `Less` and `Swap` -/

theorem swapAt_adjacent (A B : List Nat) (x y : Nat) :
    swapAt (A ++ y :: x :: B) (A.length + 1) A.length = A ++ x :: y :: B := by
  unfold swapAt
  have h1 : (A ++ y :: x :: B).getD A.length 0 = y := by
    rw [List.getD_eq_getElem?_getD, List.getElem?_append_right (le_refl _)]; simp
  have h2 : (A ++ y :: x :: B).getD (A.length + 1) 0 = x := by
    rw [List.getD_eq_getElem?_getD, List.getElem?_append_right (by omega)]; simp
  rw [h1, h2, List.set_append_right _ _ (by omega)]
  simp

theorem ofPairs_Less (A B : List (Nat × Nat)) (p q : Nat × Nat) :
    (ofPairs (A ++ q :: p :: B)).Less (A.length + 1) A.length = decide (p.1 > q.1) := by
  unfold unsortableHighToLowUint64.Less ofPairs
  simp only [List.map_append, List.map_cons]
  have h1 : (List.map Prod.fst A ++ q.1 :: p.1 :: List.map Prod.fst B).getD A.length 0 = q.1 := by
    rw [List.getD_eq_getElem?_getD, List.getElem?_append_right (by simp)]; simp
  have h2 : (List.map Prod.fst A ++ q.1 :: p.1 :: List.map Prod.fst B).getD (A.length + 1) 0
      = p.1 := by
    rw [List.getD_eq_getElem?_getD, List.getElem?_append_right (by simp)]; simp
  rw [h1, h2]

theorem ofPairs_Swap (A B : List (Nat × Nat)) (p q : Nat × Nat) :
    (ofPairs (A ++ q :: p :: B)).Swap (A.length + 1) A.length = ofPairs (A ++ p :: q :: B) := by
  unfold unsortableHighToLowUint64.Swap ofPairs
  simp only [List.map_append, List.map_cons]
  have h1 := swapAt_adjacent (A.map Prod.fst) (B.map Prod.fst) p.1 q.1
  have h2 := swapAt_adjacent (A.map Prod.snd) (B.map Prod.snd) p.2 q.2
  simp only [List.length_map] at h1 h2
  rw [h1, h2]

/-- The inner loop, on pairs: the pair at position `done.length` is bubbled
into the part to its left. -/
theorem insertDown_ofPairs :
    ∀ (done : List (Nat × Nat)) (p : Nat × Nat) (rest : List (Nat × Nat)),
      insertDown (ofPairs (done.reverse ++ p :: rest)) done.length
        = ofPairs ((bubble p done).reverse ++ rest) := by
  intro done
  induction done with
  | nil => intro p rest; simp [insertDown, bubble]
  | cons q qs ih =>
    intro p rest
    have hshape : (q :: qs).reverse ++ p :: rest = qs.reverse ++ q :: p :: rest := by simp
    have hlen : qs.reverse.length = qs.length := by simp
    rw [hshape, List.length_cons]
    unfold insertDown
    rw [← hlen, ofPairs_Less, ofPairs_Swap, hlen]
    by_cases h : p.1 > q.1
    · simp only [h, decide_True, if_true]
      rw [ih p (q :: rest)]
      simp [bubble, h]
    · simp only [h, decide_False, Bool.false_eq_true, if_false]
      simp [bubble, h]

theorem length_bubble (p : Nat × Nat) :
    ∀ done : List (Nat × Nat), (bubble p done).length = done.length + 1 := by
  intro done
  induction done with
  | nil => simp [bubble]
  | cons q qs ih =>
    unfold bubble
    split
    · simp [ih]
    · simp

/-- The outer loop, on pairs. -/
theorem insertFrom_ofPairs :
    ∀ (rest done : List (Nat × Nat)),
      insertFrom rest.length done.length (ofPairs (done.reverse ++ rest))
        = ofPairs (insertAll done rest) := by
  intro rest
  induction rest with
  | nil => intro done; simp [insertFrom, insertAll]
  | cons p rest ih =>
    intro done
    rw [List.length_cons]
    unfold insertFrom
    rw [insertDown_ofPairs, ← length_bubble p done, ih (bubble p done)]
    simp [insertAll]

/-- The sort, on pairs. -/
theorem sortStable_ofPairs (ps : List (Nat × Nat)) :
    sortStable (ofPairs ps) = ofPairs (insertAll [] ps) := by
  unfold sortStable unsortableHighToLowUint64.Len
  cases ps with
  | nil => simp [ofPairs, insertFrom, insertAll]
  | cons p rest =>
    have h := insertFrom_ofPairs rest [p]
    simp only [List.length_singleton, List.reverse_singleton, List.singleton_append] at h
    have hl : (ofPairs (p :: rest)).items.length - 1 = rest.length := by simp [ofPairs]
    rw [hl, h]
    simp [insertAll, bubble]

theorem newUnsortable_eq (coins : List Nat) :
    newUnsortableHighToLowUint64 coins = ofPairs (coins.zip (List.range coins.length)) := by
  unfold newUnsortableHighToLowUint64 ofPairs
  rw [List.map_fst_zip _ _ (by simp), List.map_snd_zip _ _ (by simp)]

theorem bubble_perm (p : Nat × Nat) :
    ∀ done : List (Nat × Nat), (bubble p done).Perm (p :: done) := by
  intro done
  induction done with
  | nil => simp [bubble]
  | cons q qs ih =>
    unfold bubble
    split
    · exact (List.Perm.cons q ih).trans (List.Perm.swap p q qs)
    · exact List.Perm.refl _

theorem insertAll_perm :
    ∀ (rest done : List (Nat × Nat)), (insertAll done rest).Perm (done ++ rest) := by
  intro rest
  induction rest with
  | nil => intro done; simp [insertAll]
  | cons p rest ih =>
    intro done
    unfold insertAll
    refine (ih (bubble p done)).trans ?_
    refine ((bubble_perm p done).append_right rest).trans ?_
    simpa using (@List.perm_middle _ p done rest).symm

theorem Before.trans {p q r : Nat × Nat} (h1 : Before p q) (h2 : Before q r) : Before p r := by
  unfold Before at *
  omega

/-- Bubbling a pair with a newer index into a part sorted from right to left
keeps it sorted. -/
theorem bubble_sorted (p : Nat × Nat) :
    ∀ done : List (Nat × Nat), (∀ q ∈ done, q.2 < p.2) →
      done.Pairwise (fun a b => Before b a) →
      (bubble p done).Pairwise (fun a b => Before b a) := by
  intro done
  induction done with
  | nil => intro _ _; simp [bubble]
  | cons q qs ih =>
    intro hidx hs
    rw [List.pairwise_cons] at hs
    unfold bubble
    split
    · rename_i hlt
      rw [List.pairwise_cons]
      refine ⟨?_, ih (fun x hx => hidx x (List.mem_cons_of_mem _ hx)) hs.2⟩
      intro x hx
      rcases List.mem_cons.mp ((bubble_perm p qs).mem_iff.mp hx) with rfl | hx
      · exact Or.inl hlt
      · exact hs.1 x hx
    · rename_i hnlt
      have hq : Before q p := by
        have := hidx q (List.mem_cons_self _ _)
        unfold Before
        omega
      rw [List.pairwise_cons]
      refine ⟨?_, List.pairwise_cons.mpr hs⟩
      intro x hx
      rcases List.mem_cons.mp hx with rfl | hx
      · exact hq
      · exact (hs.1 x hx).trans hq

/-- Inserting pairs of increasing indices, all newer than the sorted part,
leaves the whole in stable descending order. -/
theorem insertAll_sorted :
    ∀ (rest done : List (Nat × Nat)),
      (∀ q ∈ done, ∀ p ∈ rest, q.2 < p.2) →
      rest.Pairwise (fun a b => a.2 < b.2) →
      done.Pairwise (fun a b => Before b a) →
      (insertAll done rest).Pairwise Before := by
  intro rest
  induction rest with
  | nil =>
    intro done _ _ hs
    simpa [insertAll, List.pairwise_reverse] using hs
  | cons p rest ih =>
    intro done hidx hinc hs
    rw [List.pairwise_cons] at hinc
    unfold insertAll
    apply ih
    · intro q hq x hx
      rcases List.mem_cons.mp ((bubble_perm p done).mem_iff.mp hq) with rfl | hq
      · exact hinc.1 x hx
      · exact hidx q hq x (List.mem_cons_of_mem _ hx)
    · exact hinc.2
    · exact bubble_sorted p done (fun q hq => hidx q hq p (List.mem_cons_self _ _)) hs
/-! ## The sorted indices of the coins -/

theorem mem_zip_range {l : List Nat} {p : Nat × Nat}
    (h : p ∈ l.zip (List.range l.length)) : l[p.2]? = some p.1 := by
  obtain ⟨i, hi⟩ := List.mem_iff_getElem?.mp h
  rw [List.getElem?_zip_eq_some] at hi
  obtain ⟨h1, h2⟩ := hi
  have hlt : i < l.length := by
    rcases Nat.lt_or_ge i l.length with hlt | hge
    · exact hlt
    · rw [List.getElem?_eq_none hge] at h1; exact absurd h1 (by simp)
  rw [List.getElem?_range hlt] at h2
  have : i = p.2 := by simpa using h2
  rw [← this]; exact h1

theorem sortStable_new (coins : List Nat) :
    sortStable (newUnsortableHighToLowUint64 coins)
      = ofPairs (insertAll [] (coins.zip (List.range coins.length))) := by
  rw [newUnsortable_eq, sortStable_ofPairs]

/-- The sorted pairs are the coins with their positions, rearranged. -/
theorem sorted_pairs_perm (coins : List Nat) :
    (insertAll [] (coins.zip (List.range coins.length))).Perm
      (coins.zip (List.range coins.length)) := by
  simpa using insertAll_perm (coins.zip (List.range coins.length)) []

/-- The sorted pairs are in stable descending order. -/
theorem sorted_pairs_before (coins : List Nat) :
    (insertAll [] (coins.zip (List.range coins.length))).Pairwise Before := by
  apply insertAll_sorted
  · intro q hq; simp at hq
  · have h : ((coins.zip (List.range coins.length)).map Prod.snd).Pairwise (· < ·) := by
      rw [List.map_snd_zip _ _ (by simp)]
      exact List.pairwise_lt_range _
    exact List.pairwise_map.mp h
  · exact List.Pairwise.nil

/-- The sorted indices are the positions `0 .. len(coins) - 1`, rearranged. -/
theorem sorted_indices_perm (coins : List Nat) :
    (sortStable (newUnsortableHighToLowUint64 coins)).indices.Perm
      (List.range coins.length) := by
  rw [sortStable_new]
  have h := (sorted_pairs_perm coins).map Prod.snd
  rw [List.map_snd_zip _ _ (by simp)] at h
  exact h

/-! ## The scarcity branch -/

theorem length_markAll : ∀ (idxs l : List Nat), (markAll idxs l).length = l.length := by
  intro idxs
  induction idxs with
  | nil => intro l; rfl
  | cons a rest ih => intro l; simp only [markAll, List.foldl_cons] at ih ⊢; rw [ih]; simp

theorem getElem?_markAll :
    ∀ (idxs l : List Nat) (j : Nat), j < l.length →
      (markAll idxs l)[j]? = if j ∈ idxs then some 1 else l[j]? := by
  intro idxs
  induction idxs with
  | nil => intro l j _; simp [markAll]
  | cons a rest ih =>
    intro l j hj
    have hstep : markAll (a :: rest) l = markAll rest (l.set a 1) := rfl
    rw [hstep, ih (l.set a 1) j (by simpa using hj)]
    by_cases hr : j ∈ rest
    · simp [hr]
    · by_cases ha : a = j
      · subst ha
        simp [hr, List.getElem?_set, hj]
      · have hne : ¬ j = a := fun h => ha h.symm
        simp [hr, hne, List.getElem?_set_ne ha]

/-- The grant loop succeeds on in-range indices and marks the entries at
positions `i, .., i + k - 1` of `indices`. -/
theorem grantTop_eq (indices : List Nat) :
    ∀ (k i : Nat) (l : List Nat), i + k ≤ indices.length →
      (∀ idx ∈ indices, idx < l.length) →
      grantTop indices k i l = .ok (markAll ((indices.drop i).take k) l) := by
  intro k
  induction k with
  | zero => intro i l _ _; simp [grantTop, markAll]
  | succ k ih =>
    intro i l hik hall
    have hi : i < indices.length := by omega
    have hget : indices[i]? = some indices[i] := List.getElem?_eq_getElem hi
    have hlt : indices[i] < l.length := hall _ (List.getElem_mem hi)
    unfold grantTop
    rw [hget]
    simp only [hlt, if_true]
    rw [ih (i + 1) (l.set indices[i] 1) (by omega) (by simpa using hall)]
    rw [List.drop_eq_getElem_cons hi]
    rfl

theorem sum_eq_count_one :
    ∀ l : List Nat, (∀ x ∈ l, x = 0 ∨ x = 1) → l.sum = l.count 1 := by
  intro l
  induction l with
  | nil => intro _; rfl
  | cons x xs ih =>
    intro h
    have hx := h x (List.mem_cons_self _ _)
    have hxs := ih (fun y hy => h y (List.mem_cons_of_mem _ hy))
    rcases hx with rfl | rfl
    · simp [hxs]
    · simp [hxs]; omega

/-- Marking `m` distinct positions of an all-zero slice leaves exactly `m`
ones. -/
theorem markAll_zero_shape (n : Nat) (idxs : List Nat) :
    markAll idxs (List.replicate n 0)
      = (List.range n).map (fun j => if j ∈ idxs then 1 else 0) := by
  apply List.ext_getElem?
  intro j
  by_cases hj : j < n
  · rw [getElem?_markAll _ _ _ (by simpa using hj), List.getElem?_map,
      List.getElem?_range hj, List.getElem?_replicate_of_lt hj]
    by_cases hm : j ∈ idxs <;> simp [hm]
  · have h1 : (markAll idxs (List.replicate n 0)).length ≤ j := by
      rw [length_markAll]; simpa using hj
    rw [List.getElem?_eq_none h1, List.getElem?_eq_none (by simpa using hj)]

theorem count_marked (indices : List Nat) (n m : Nat)
    (hperm : indices.Perm (List.range n)) (hm : m ≤ n) :
    ((List.range n).map (fun j => if j ∈ indices.take m then 1 else 0)).count 1 = m := by
  have hnodup : indices.Nodup := hperm.symm.nodup (List.nodup_range n)
  have hlen : indices.length = n := by simpa using hperm.length_eq
  have hsplit : (indices.take m ++ indices.drop m).Nodup := by
    rw [List.take_append_drop]; exact hnodup
  rw [List.nodup_append] at hsplit
  have hcount : ∀ p : Nat → Bool, List.countP p indices
      = List.countP p (indices.take m) + List.countP p (indices.drop m) := by
    intro p; rw [← List.countP_append, List.take_append_drop]
  have h3 : List.countP ((fun x => x == 1) ∘ fun j => if j ∈ indices.take m then 1 else 0)
      (indices.drop m) = 0 := by
    rw [List.countP_eq_zero]
    intro a ha
    have : a ∉ indices.take m := fun hin => hsplit.2.2 hin ha
    simp [this]
  have h4 : List.countP ((fun x => x == 1) ∘ fun j => if j ∈ indices.take m then 1 else 0)
      (indices.take m) = (indices.take m).length := by
    rw [List.countP_eq_length]
    intro a ha
    simp [ha]
  rw [List.count_eq_countP, List.countP_map, ← hperm.countP_eq, hcount, h3, h4]
  simp; omega
/-- An index among the first `m` sorted indices comes, with its coin, before
every index among the others in the stable descending order. -/
theorem top_indices_before (coins : List Nat) (m i j : Nat)
    (hi : i < coins.length) (hj : j < coins.length)
    (hjm : j ∈ (sortStable (newUnsortableHighToLowUint64 coins)).indices.take m)
    (him : i ∈ (sortStable (newUnsortableHighToLowUint64 coins)).indices.drop m) :
    Before (coins[j], j) (coins[i], i) := by
  rw [sortStable_new] at hjm him
  simp only [ofPairs, ← List.map_take, ← List.map_drop, List.mem_map] at hjm him
  obtain ⟨p, hp, hpj⟩ := hjm
  obtain ⟨q, hq, hqi⟩ := him
  have hsorted := sorted_pairs_before coins
  rw [← List.take_append_drop m (insertAll [] (coins.zip (List.range coins.length))),
    List.pairwise_append] at hsorted
  have hpq := hsorted.2.2 p hp q hq
  have hp1 := mem_zip_range ((sorted_pairs_perm coins).mem_iff.mp (List.mem_of_mem_take hp))
  have hq1 := mem_zip_range ((sorted_pairs_perm coins).mem_iff.mp (List.mem_of_mem_drop hq))
  rw [hpj, List.getElem?_eq_getElem hj] at hp1
  rw [hqi, List.getElem?_eq_getElem hi] at hq1
  have e1 : coins[j] = p.1 := by simpa using hp1
  have e2 : coins[i] = q.1 := by simpa using hq1
  unfold Before at hpq ⊢
  show coins[j] > coins[i] ∨ (coins[j] = coins[i] ∧ j < i)
  rw [e1, e2]
  rw [hpj, hqi] at hpq
  exact hpq

/-- Only valid coins get a result. -/
theorem valid_of_ok {coins : List Nat} {hours : Nat} {r : List Nat}
    (hr : DistributeCoinHoursProportional coins hours = .ok r) :
    coins ≠ [] ∧ (∀ c ∈ coins, 0 < c ∧ c < I64) ∧ coins.sum < U64 := by
  have hne : coins ≠ [] := by
    rintro rfl
    rw [DistributeCoinHoursProportional_nil] at hr
    exact absurd hr (by simp)
  refine ⟨hne, ?_⟩
  by_contra hbad
  obtain ⟨e, he, _⟩ := DistributeCoinHoursProportional_invalid coins hours hne hbad
  rw [he] at hr
  exact absurd hr (by simp)

/-- The scarcity branch in closed form: valid coins and `0 < hours < len(coins)`
give one hour to each of the first `hours` sorted indices. -/
theorem DistributeCoinHoursProportional_scarce (coins : List Nat) (hours : Nat)
    (hvalid : (∀ c ∈ coins, 0 < c ∧ c < I64) ∧ coins.sum < U64)
    (h0 : 0 < hours) (hlt : hours < coins.length) :
    DistributeCoinHoursProportional coins hours
      = .ok (markAll ((sortStable (newUnsortableHighToLowUint64 coins)).indices.take hours)
          (List.replicate coins.length 0)) := by
  have hperm := sorted_indices_perm coins
  have hlen : (sortStable (newUnsortableHighToLowUint64 coins)).indices.length = coins.length := by
    simpa using hperm.length_eq
  have hgrant := grantTop_eq (sortStable (newUnsortableHighToLowUint64 coins)).indices
    hours 0 (List.replicate coins.length 0) (by omega)
    (by
      intro idx hidx
      have := hperm.mem_iff.mp hidx
      simpa using this)
  unfold DistributeCoinHoursProportional
  rw [if_neg (by omega), sumCoins_ok coins 0 [] hvalid.1 (by simpa using hvalid.2)]
  simp only [ge_iff_le, if_neg (Nat.not_le.mpr hlt), gt_iff_lt, h0, if_true, hgrant]
  simp
/-! ## The proportional loop -/

theorem cast_frac (c h T : Nat) : ((c : Int) * (h : Int)) / (T : Int) = ((c * h / T : Nat) : Int) := by
  push_cast
  rfl

theorem IsUint64_cast {n : Nat} (h : n < U64) : IsUint64 (n : Int) = true := by
  unfold IsUint64
  simp only [decide_eq_true_eq]
  exact ⟨Int.natCast_nonneg n, by exact_mod_cast h⟩

/-- With every checked addition in range, the proportional loop adds the floor
of each coin's share to the entry at the coin's index, and to the assigned
hours. -/
theorem propLoop_eq (h T : Nat) (hT : 0 < T) :
    ∀ (cs pre : List Nat) (assigned : Nat),
      (∀ c ∈ cs, 1 + c * h / T < U64) →
      assigned + (cs.map (fun c => c * h / T)).sum < U64 →
      propLoop (h : Int) (T : Int) (cs.map (fun (c : Nat) => (c : Int))) pre.length
          (pre ++ List.replicate cs.length 1) assigned
        = .ok (pre ++ cs.map (fun c => 1 + c * h / T),
            assigned + (cs.map (fun c => c * h / T)).sum) := by
  intro cs
  induction cs with
  | nil => intro pre assigned _ _; simp [propLoop]
  | cons c rest ih =>
    intro pre assigned hfit hsum
    have hc := hfit c (List.mem_cons_self _ _)
    simp only [List.map_cons, List.sum_cons] at hsum
    have hT0 : ¬ (T : Int) = 0 := by exact_mod_cast (Nat.pos_iff_ne_zero.mp hT)
    have hget : (pre ++ List.replicate (c :: rest).length 1)[pre.length]? = some 1 := by
      rw [List.getElem?_append_right (le_refl _)]; simp [List.replicate_succ]
    have hset : (pre ++ List.replicate (c :: rest).length 1).set pre.length (1 + c * h / T)
        = (pre ++ [1 + c * h / T]) ++ List.replicate rest.length 1 := by
      simp [List.replicate_succ]
    have hlen : (pre ++ [1 + c * h / T]).length = pre.length + 1 := by simp
    have hadd1 : AddUint64 1 (c * h / T) = .ok (1 + c * h / T) := by
      simp [AddUint64, hc]
    have hadd2 : AddUint64 assigned (c * h / T) = .ok (assigned + c * h / T) := by
      have : assigned + c * h / T < U64 := by omega
      simp [AddUint64, this]
    rw [List.map_cons]
    unfold propLoop
    simp only [hT0, if_false, cast_frac, IsUint64_cast (show c * h / T < U64 by omega),
      not_true_eq_false, Int.toNat_ofNat, hget, hadd1, hadd2]
    rw [hset, ← hlen, ih (pre ++ [1 + c * h / T]) (assigned + c * h / T)
      (fun x hx => hfit x (List.mem_cons_of_mem _ hx)) (by omega)]
    simp [Nat.add_assoc]

/-- The first remainder pass changes nothing when no entry is zero. -/
theorem zeroPass_noop :
    ∀ (k i remainingHours : Nat) (l : List Nat), (∀ x ∈ l, x ≠ 0) → i + k ≤ l.length →
      zeroPass k i remainingHours l = .ok (l, remainingHours) := by
  intro k
  induction k with
  | zero => intro i r l _ _; rfl
  | succ k ih =>
    intro i r l hpos hik
    have hi : i < l.length := by omega
    unfold zeroPass
    by_cases hr : r = 0
    · simp [hr]
    · have hne : l[i] ≠ 0 := hpos _ (List.getElem_mem hi)
      simp only [hr, if_false, List.getElem?_eq_getElem hi, hne]
      exact ih (i + 1) r l hpos (by omega)

/-! ## Floors of proportional shares -/

/-- The floors never add up to more than the exact shares. -/
theorem floors_mul_le (h T : Nat) :
    ∀ cs : List Nat, (cs.map (fun c => c * h / T)).sum * T ≤ cs.sum * h := by
  intro cs
  induction cs with
  | nil => simp
  | cons c rest ih =>
    simp only [List.map_cons, List.sum_cons, Nat.add_mul]
    have := Nat.div_mul_le_self (c * h) T
    omega

/-- The floors fall short of the exact shares by less than one hour each. -/
theorem le_floors_mul_add (h T : Nat) (hT : 0 < T) :
    ∀ cs : List Nat,
      cs.sum * h ≤ (cs.map (fun c => c * h / T)).sum * T + cs.length * T := by
  intro cs
  induction cs with
  | nil => simp
  | cons c rest ih =>
    simp only [List.map_cons, List.sum_cons, List.length_cons, Nat.add_mul]
    have h1 := Nat.div_add_mod (c * h) T
    have h2 := Nat.mod_lt (c * h) hT
    have h3 : T * (c * h / T) = c * h / T * T := Nat.mul_comm _ _
    omega

theorem floorSum_le (coins : List Nat) (h : Nat) (hT : 0 < coins.sum) :
    floorSum coins h ≤ h := by
  have := floors_mul_le h coins.sum coins
  unfold floorSum
  rw [Nat.mul_comm coins.sum h] at this
  exact Nat.le_of_mul_le_mul_right this hT

theorem le_floorSum_add (coins : List Nat) (h : Nat) (hT : 0 < coins.sum) :
    h ≤ floorSum coins h + coins.length := by
  have := le_floors_mul_add h coins.sum hT coins
  unfold floorSum
  rw [Nat.mul_comm coins.sum h, ← Nat.add_mul] at this
  exact Nat.le_of_mul_le_mul_right this hT

theorem frac_le (coins : List Nat) (h c : Nat) (hc : c ∈ coins) :
    c * h / coins.sum ≤ h := by
  have hle : c ≤ coins.sum := List.single_le_sum (fun _ _ => Nat.zero_le _) c hc
  rcases Nat.eq_zero_or_pos coins.sum with h0 | hpos
  · rw [h0]; simp
  · calc c * h / coins.sum ≤ coins.sum * h / coins.sum :=
          Nat.div_le_div_right (Nat.mul_le_mul_right h hle)
      _ = h := Nat.mul_div_cancel_left h hpos
/-! ## The branch with at least one hour per output -/

theorem length_bump (extra : Nat) (l : List Nat) : (bump extra l).length = l.length := by
  unfold bump
  rw [List.length_append, List.length_map, ← List.length_append, List.take_append_drop]

theorem sum_bump (l : List Nat) :
    ∀ extra : Nat, extra ≤ l.length → (bump extra l).sum = l.sum + extra := by
  induction l with
  | nil => intro extra h; simp at h; simp [bump, h]
  | cons x xs ih =>
    intro extra h
    cases extra with
    | zero => simp [bump]
    | succ e =>
      have := ih e (by simpa using h)
      simp only [bump, List.take_succ_cons, List.map_cons, List.drop_succ_cons,
        List.cons_append, List.sum_cons] at this ⊢
      omega

theorem getElem?_bump (extra : Nat) (l : List Nat) (i : Nat) (hi : i < l.length)
    (he : extra ≤ l.length) :
    (bump extra l)[i]? = some (l[i] + if i < extra then 1 else 0) := by
  unfold bump
  by_cases h : i < extra
  · rw [List.getElem?_append_left (by simp; omega), List.getElem?_map, List.getElem?_take_of_lt h,
      List.getElem?_eq_getElem hi]
    simp [h]
  · rw [List.getElem?_append_right (by simp; omega), List.getElem?_drop]
    simp only [List.length_map, List.length_take, Nat.min_eq_left he, if_neg h, Nat.add_zero]
    rw [show extra + (i - extra) = i by omega, List.getElem?_eq_getElem hi]

theorem sum_shares (coins : List Nat) (h : Nat) :
    (shares coins h).sum = coins.length + floorSum coins h := by
  unfold shares floorSum
  generalize coins.sum = T
  induction coins with
  | nil => simp
  | cons c rest ih => simp only [List.map_cons, List.sum_cons, List.length_cons, ih]; omega

theorem sum_pos_of_valid {coins : List Nat} (hne : coins ≠ [])
    (hall : ∀ c ∈ coins, 0 < c ∧ c < I64) : 0 < coins.sum := by
  cases coins with
  | nil => exact absurd rfl hne
  | cons c rest =>
    have := (hall c (List.mem_cons_self _ _)).1
    simp only [List.sum_cons]
    omega

/-- The branch `hours >= len(coins)` in closed form: valid coins get one hour
each, the floor of their share of the other hours, and the hours the floors
leave over go one each to the earliest outputs; the call fails only when the
coin total or the other hours do not convert to a signed 64-bit value. -/
theorem DistributeCoinHoursProportional_plenty (coins : List Nat) (hours : Nat)
    (hne : coins ≠ [])
    (hvalid : (∀ c ∈ coins, 0 < c ∧ c < I64) ∧ coins.sum < U64)
    (hh : hours < U64) (hge : coins.length ≤ hours) :
    DistributeCoinHoursProportional coins hours
      = if hours - coins.length = 0 ∨ (coins.sum < I64 ∧ hours - coins.length < I64) then
          .ok (bump (hours - coins.length - floorSum coins (hours - coins.length))
            (shares coins (hours - coins.length)))
        else .error .int64Range := by
  have hlen : coins.length ≠ 0 := fun h => hne (List.length_eq_zero.mp h)
  have hT : 0 < coins.sum := sum_pos_of_valid hne hvalid.1
  have hsub : subU64 hours coins.length = hours - coins.length := subU64_of_le hge hh
  have hIU : I64 + 2 ≤ U64 := by decide
  unfold DistributeCoinHoursProportional
  rw [if_neg hlen, sumCoins_ok coins 0 [] hvalid.1 (by simpa using hvalid.2)]
  simp only [ge_iff_le, hge, if_true, hsub, Nat.zero_add, List.nil_append]
  generalize hours - coins.length = h
  by_cases h0 : h = 0
  · subst h0
    simp only [if_true, true_or]
    congr 1
    have : shares coins 0 = List.replicate coins.length 1 := by
      unfold shares
      simp only [Nat.mul_zero, Nat.zero_div, Nat.add_zero]
      rw [List.eq_replicate_iff]
      simp
    rw [this]
    simp [bump]
  · simp only [h0, if_false, false_or, Uint64ToInt64]
    by_cases hT63 : coins.sum < I64
    · by_cases hh63 : h < I64
      · have hfs := floorSum_le coins h hT
        have hrem := le_floorSum_add coins h hT
        have hfit : ∀ c ∈ coins, 1 + c * h / coins.sum < U64 := by
          intro c hc
          have := frac_le coins h c hc
          omega
        have hprop := propLoop_eq h coins.sum hT coins [] 0 hfit
          (by have : floorSum coins h = (coins.map (fun c => c * h / coins.sum)).sum := rfl
              omega)
        simp only [List.length_nil, List.nil_append, Nat.zero_add] at hprop
        have hshare : ∀ x ∈ shares coins h, x ≠ 0 := by
          intro x hx
          obtain ⟨c, _, rfl⟩ := List.mem_map.mp hx
          show 1 + c * h / coins.sum ≠ 0
          rw [Nat.add_comm]
          exact Nat.succ_ne_zero _
        have hslen : (shares coins h).length = coins.length := by simp [shares]
        have hzero := zeroPass_noop coins.length 0 (h - floorSum coins h) (shares coins h)
          hshare (by omega)
        have hincr := incrLoop_zero_start (h - floorSum coins h) (shares coins h) (by omega)
        have hmap : (List.take (h - floorSum coins h) (shares coins h)).map (fun a => addU64 a 1)
            = (List.take (h - floorSum coins h) (shares coins h)).map (fun a => a + 1) := by
          apply List.map_congr_left
          intro a ha
          obtain ⟨c, hc, rfl⟩ := List.mem_map.mp (List.mem_of_mem_take ha)
          have := frac_le coins h c hc
          exact addU64_of_lt (show 1 + c * h / coins.sum + 1 < U64 by omega)
        rw [hmap] at hincr
        have hfs' : (coins.map (fun c => c * h / coins.sum)).sum = floorSum coins h := rfl
        have hsh' : coins.map (fun c => 1 + c * h / coins.sum) = shares coins h := rfl
        rw [hfs', hsh'] at hprop
        simp only [hT63, hh63, if_true, and_self, hprop,
          if_neg (Nat.not_lt.mpr hfs), subU64_of_le hfs (show h < U64 by omega),
          gt_iff_lt, if_neg (show ¬ coins.length < h - floorSum coins h by omega),
          hzero, hincr]
        rfl
      · simp [hT63, hh63]
    · simp [hT63]

/-- With no hours at all, valid coins get an all-zero result. -/
theorem DistributeCoinHoursProportional_zero (coins : List Nat)
    (hne : coins ≠ [])
    (hvalid : (∀ c ∈ coins, 0 < c ∧ c < I64) ∧ coins.sum < U64) :
    DistributeCoinHoursProportional coins 0 = .ok (List.replicate coins.length 0) := by
  have hlen : coins.length ≠ 0 := fun h => hne (List.length_eq_zero.mp h)
  unfold DistributeCoinHoursProportional
  rw [if_neg hlen, sumCoins_ok coins 0 [] hvalid.1 (by simpa using hvalid.2)]
  simp [hlen]

/-- A result of the branch `hours >= len(coins)` is the closed form. -/
theorem plenty_result {coins : List Nat} {hours : Nat} {r : List Nat}
    (hh : hours < U64) (hge : coins.length ≤ hours)
    (hr : DistributeCoinHoursProportional coins hours = .ok r) :
    r = bump (hours - coins.length - floorSum coins (hours - coins.length))
          (shares coins (hours - coins.length))
      ∧ hours - coins.length - floorSum coins (hours - coins.length) ≤ coins.length
      ∧ floorSum coins (hours - coins.length) ≤ hours - coins.length := by
  obtain ⟨hne, hvalid⟩ := valid_of_ok hr
  have hT : 0 < coins.sum := sum_pos_of_valid hne hvalid.1
  rw [DistributeCoinHoursProportional_plenty coins hours hne hvalid hh hge] at hr
  have h1 := le_floorSum_add coins (hours - coins.length) hT
  have h2 := floorSum_le coins (hours - coins.length) hT
  split at hr
  · exact ⟨(Except.ok.inj hr).symm, by omega, h2⟩
  · exact absurd hr (by simp)
/-! ## Every outcome of `DistributeCoinHoursProportional` -/

/-- The number of extra hours computed by `DistributeSpendHours` is the
remainder of the division by the number of destinations. -/
theorem extraHours_eq (A n : Nat) (hA : A < U64) :
    mulU64 (A / n) n = A / n * n ∧ subU64 A (mulU64 (A / n) n) = A % n := by
  have hmul : A / n * n ≤ A := Nat.div_mul_le_self A n
  have hdm : A / n * n + A % n = A := by
    rw [Nat.mul_comm]; exact Nat.div_add_mod A n
  have h1 : mulU64 (A / n) n = A / n * n := mulU64_of_lt (by omega)
  refine ⟨h1, ?_⟩
  rw [h1, subU64_of_le hmul hA]
  omega

/-- For hours that fit 64 unsigned bits, a call either returns a result or
one of four errors: empty input, zero coin, overflow of the coin sum, or a
value that does not convert to a signed 64-bit number. -/
theorem outcome_kinds (coins : List Nat) (hours : Nat) (hh : hours < U64) :
    (∃ r, DistributeCoinHoursProportional coins hours = .ok r)
    ∨ DistributeCoinHoursProportional coins hours = .error .emptyCoins
    ∨ DistributeCoinHoursProportional coins hours = .error .zeroCoin
    ∨ DistributeCoinHoursProportional coins hours = .error .addOverflow
    ∨ DistributeCoinHoursProportional coins hours = .error .int64Range := by
  by_cases hne : coins = []
  · subst hne
    exact Or.inr (Or.inl (DistributeCoinHoursProportional_nil hours))
  by_cases hvalid : (∀ c ∈ coins, 0 < c ∧ c < I64) ∧ coins.sum < U64
  · rcases Nat.lt_or_ge hours coins.length with hlt | hge
    · rcases Nat.eq_zero_or_pos hours with h0 | h0
      · subst h0
        exact Or.inl ⟨_, DistributeCoinHoursProportional_zero coins hne hvalid⟩
      · exact Or.inl ⟨_, DistributeCoinHoursProportional_scarce coins hours hvalid h0 hlt⟩
    · rw [DistributeCoinHoursProportional_plenty coins hours hne hvalid hh hge]
      split
      · exact Or.inl ⟨_, rfl⟩
      · exact Or.inr (Or.inr (Or.inr (Or.inr rfl)))
  · obtain ⟨e, he, hk⟩ := DistributeCoinHoursProportional_invalid coins hours hne hvalid
    rw [he]
    rcases hk with rfl | rfl | rfl
    · exact Or.inr (Or.inr (Or.inl rfl))
    · exact Or.inr (Or.inr (Or.inr (Or.inl rfl)))
    · exact Or.inr (Or.inr (Or.inr (Or.inr rfl)))

/-- The proportional loop on valid coins whose total and hours convert: it
returns the shares and their floors' sum, which leaves between 0 and
`len(coins)` hours over. -/
theorem propLoop_valid (coins : List Nat) (h : Nat) (hne : coins ≠ [])
    (hvalid : (∀ c ∈ coins, 0 < c ∧ c < I64) ∧ coins.sum < U64) (hh63 : h < I64) :
    propLoop (h : Int) (coins.sum : Int) (coins.map (fun (c : Nat) => (c : Int))) 0
        (List.replicate coins.length 1) 0
      = .ok (shares coins h, floorSum coins h)
    ∧ floorSum coins h ≤ h
    ∧ h - floorSum coins h ≤ coins.length
    ∧ ∀ c ∈ coins, c * h / coins.sum ≤ h := by
  have hT : 0 < coins.sum := sum_pos_of_valid hne hvalid.1
  have hIU : I64 + 2 ≤ U64 := by decide
  have hfs := floorSum_le coins h hT
  have hrem := le_floorSum_add coins h hT
  have hfit : ∀ c ∈ coins, 1 + c * h / coins.sum < U64 := by
    intro c hc
    have := frac_le coins h c hc
    omega
  have hprop := propLoop_eq h coins.sum hT coins [] 0 hfit
    (by have : floorSum coins h = (coins.map (fun c => c * h / coins.sum)).sum := rfl
        omega)
  simp only [List.length_nil, List.nil_append, Nat.zero_add] at hprop
  exact ⟨hprop, hfs, by omega, fun c hc => frac_le coins h c hc⟩
/-! ## The first remainder pass -/

theorem shares_ne_zero (coins : List Nat) (h : Nat) : ∀ x ∈ shares coins h, x ≠ 0 := by
  intro x hx
  obtain ⟨c, _, rfl⟩ := List.mem_map.mp hx
  show 1 + c * h / coins.sum ≠ 0
  rw [Nat.add_comm]
  exact Nat.succ_ne_zero _

theorem length_shares (coins : List Nat) (h : Nat) : (shares coins h).length = coins.length := by
  simp [shares]

/-- The first remainder pass leaves the shares as they are. -/
theorem zeroPass_shares (coins : List Nat) (h remainingHours : Nat) :
    zeroPass coins.length 0 remainingHours (shares coins h)
      = .ok (shares coins h, remainingHours) :=
  zeroPass_noop coins.length 0 remainingHours (shares coins h) (shares_ne_zero coins h)
    (by rw [length_shares]; omega)

/-- Taking the first remainder pass out changes no outcome. -/
theorem noZeroPass_eq (coins : List Nat) (hours : Nat) (hh : hours < U64) :
    DistributeCoinHoursProportional coins hours
      = DistributeCoinHoursProportionalNoZeroPass coins hours := by
  by_cases hlen : coins.length = 0
  · simp [DistributeCoinHoursProportional, DistributeCoinHoursProportionalNoZeroPass, hlen]
  have hne : coins ≠ [] := fun h => hlen (by simp [h])
  by_cases hvalid : (∀ c ∈ coins, 0 < c ∧ c < I64) ∧ coins.sum < U64
  · unfold DistributeCoinHoursProportional DistributeCoinHoursProportionalNoZeroPass
    rw [if_neg hlen, if_neg hlen, sumCoins_ok coins 0 [] hvalid.1 (by simpa using hvalid.2)]
    simp only [Nat.zero_add, List.nil_append]
    by_cases hge : hours ≥ coins.length
    · have hsub : subU64 hours coins.length = hours - coins.length := subU64_of_le hge hh
      simp only [hge, if_true, hsub]
      generalize hours - coins.length = h
      by_cases h0 : h = 0
      · simp [h0]
      · simp only [h0, if_false, Uint64ToInt64]
        by_cases hT63 : coins.sum < I64
        · by_cases hh63 : h < I64
          · obtain ⟨hprop, hfs, hrem, _⟩ := propLoop_valid coins h hne hvalid hh63
            have hIU : I64 + 2 ≤ U64 := by decide
            simp only [hT63, hh63, if_true, hprop, if_neg (Nat.not_lt.mpr hfs),
              subU64_of_le hfs (show h < U64 by omega), gt_iff_lt,
              if_neg (show ¬ coins.length < h - floorSum coins h by omega),
              zeroPass_shares]
          · simp [hT63, hh63]
        · simp [hT63]
    · simp only [hge, if_false]
      by_cases h0 : hours > 0
      · simp only [h0, if_true]
        cases grantTop (sortStable (newUnsortableHighToLowUint64 coins)).indices hours 0
            (List.replicate coins.length 0) with
        | error e => rfl
        | ok a => simp
      · simp only [h0, if_false]
        have : hours = 0 := by omega
        simp [this]
  · obtain ⟨e, he, _⟩ := sumCoins_error coins 0 [] (by decide) (by simpa using hvalid)
    unfold DistributeCoinHoursProportional DistributeCoinHoursProportionalNoZeroPass
    rw [if_neg hlen, if_neg hlen, he]
/-! ## The sorted items and indices -/

theorem pairwise_getElem? {α : Type} {R : α → α → Prop} {l : List α}
    (hp : l.Pairwise R) {k m : Nat} {a b : α} (hkm : k < m)
    (hk : l[k]? = some a) (hm : l[m]? = some b) : R a b := by
  obtain ⟨hk1, hk2⟩ := List.getElem?_eq_some.mp hk
  obtain ⟨hm1, hm2⟩ := List.getElem?_eq_some.mp hm
  have := List.pairwise_iff_getElem.mp hp k m hk1 hm1 hkm
  rw [hk2, hm2] at this
  exact this

/-- The sorter after the sort holds the sorted pairs. -/
theorem sorted_fields (items : List Nat) :
    (sortStable (newUnsortableHighToLowUint64 items)).items
        = (insertAll [] (items.zip (List.range items.length))).map Prod.fst
    ∧ (sortStable (newUnsortableHighToLowUint64 items)).indices
        = (insertAll [] (items.zip (List.range items.length))).map Prod.snd := by
  rw [sortStable_new]
  exact ⟨rfl, rfl⟩

theorem length_sorted_pairs (items : List Nat) :
    (insertAll [] (items.zip (List.range items.length))).length = items.length := by
  rw [(sorted_pairs_perm items).length_eq]
  simp
/-! ## `DistributeSpendHours` with checked operations -/

/-- When hours are left over after the division, a share plus one still fits
64 unsigned bits. -/
theorem share_succ_lt (A n : Nat) (hn1 : 1 ≤ n) (hA : A < U64) (hmod : A % n ≠ 0) :
    A / n + 1 < U64 := by
  have hn : 2 ≤ n := by
    rcases Nat.lt_or_ge n 2 with h | h
    · have h1 : n = 1 := by omega
      subst h1
      exact absurd (Nat.mod_one A) hmod
    · exact h
  have h1 : A / n * 2 ≤ A / n * n := Nat.mul_le_mul_left _ hn
  have h2 : A / n * n ≤ A := Nat.div_mul_le_self A n
  have hU : U64 = 18446744073709551616 := by norm_num [U64]
  omega

/-- The checked increment loop, started at index `pre.length`, adds one to
the next `extra` entries when none of these additions would wrap. -/
theorem incrLoopChecked_append :
    ∀ (extra : Nat) (pre xs : List Nat), extra ≤ xs.length →
      (∀ a ∈ xs.take extra, a + 1 < U64) →
      incrLoopChecked extra pre.length (pre ++ xs)
        = .ok (pre ++ (xs.take extra).map (fun a => a + 1) ++ xs.drop extra) := by
  intro extra
  induction extra with
  | zero => intro pre xs _ _; simp [incrLoopChecked]
  | succ e ih =>
    intro pre xs h hfit
    cases xs with
    | nil => simp at h
    | cons x xs =>
      simp only [List.length_cons, Nat.add_le_add_iff_right] at h
      have hx : x + 1 < U64 := hfit x (by simp)
      have hget : (pre ++ x :: xs)[pre.length]? = some x := by
        rw [List.getElem?_append_right (le_refl _)]; simp
      have hset : (pre ++ x :: xs).set pre.length (x + 1) = (pre ++ [x + 1]) ++ xs := by simp
      have hlen : (pre ++ [x + 1]).length = pre.length + 1 := by simp
      unfold incrLoopChecked
      rw [hget]
      simp only [addChecked, hx, if_true]
      rw [hset, ← hlen, ih (pre ++ [x + 1]) xs h
        (fun a ha => hfit a (by simp only [List.take_succ_cons]; exact List.mem_cons_of_mem _ ha))]
      simp

/-- The checked running sum returns the sum when it fits 64 unsigned bits. -/
theorem sumLoopChecked_eq :
    ∀ (l : List Nat) (spendHours : Nat), spendHours + l.sum < U64 →
      sumLoopChecked l spendHours = .ok (spendHours + l.sum) := by
  intro l
  induction l with
  | nil => intro s _; simp [sumLoopChecked]
  | cons x xs ih =>
    intro s h
    simp only [List.sum_cons] at h
    have hx : s + x < U64 := by omega
    unfold sumLoopChecked
    simp only [addChecked, hx, if_true]
    rw [ih (s + x) (by omega)]
    simp [Nat.add_assoc]

/-- With a fee that does not exceed the input, the operations of the checked
variant up to the division by `nAddrs` do not wrap. -/
theorem checked_prefix (RequiredFee : Nat → Nat → Nat) (BurnFactor inputHours : Nat)
    (haveChange : Bool) (hin : inputHours < U64)
    (hfee : RequiredFee inputHours BurnFactor ≤ inputHours) :
    subChecked inputHours (RequiredFee inputHours BurnFactor)
        = .ok (inputHours - RequiredFee inputHours BurnFactor)
    ∧ (if haveChange = true then
          (if (inputHours - RequiredFee inputHours BurnFactor) % 2 = 1
            then addChecked ((inputHours - RequiredFee inputHours BurnFactor) / 2) 1
            else .ok ((inputHours - RequiredFee inputHours BurnFactor) / 2))
        else .ok 0)
        = (.ok (changeOf haveChange (inputHours - RequiredFee inputHours BurnFactor)) :
            Except Fault Nat)
    ∧ subChecked (inputHours - RequiredFee inputHours BurnFactor)
          (changeOf haveChange (inputHours - RequiredFee inputHours BurnFactor))
        = .ok (inputHours - RequiredFee inputHours BurnFactor
            - changeOf haveChange (inputHours - RequiredFee inputHours BurnFactor)) := by
  have hcle := changeOf_le haveChange (inputHours - RequiredFee inputHours BurnFactor)
  refine ⟨by simp [subChecked, hfee], ?_, by simp [subChecked, hcle]⟩
  unfold changeOf
  cases haveChange
  · simp
  · simp only [if_true]
    split
    · rename_i hodd
      have : (inputHours - RequiredFee inputHours BurnFactor) / 2 + 1 < U64 := by omega
      simp only [addChecked, this, if_true]
      congr 1
      omega
    · congr 1
      omega

/-- The checked variant returns what `DistributeSpendHours` returns in closed
form: no operation on the way wraps. -/
theorem DistributeSpendHoursChecked_closed (maxAlloc : Nat) (RequiredFee : Nat → Nat → Nat)
    (BurnFactor : Nat) (inputHours nAddrs : Nat) (haveChange : Bool)
    (hin : inputHours < U64) (hn : 1 ≤ nAddrs)
    (hmake : makesliceOK maxAlloc nAddrs = true)
    (hfee : RequiredFee inputHours BurnFactor ≤ inputHours) :
    DistributeSpendHoursChecked maxAlloc RequiredFee BurnFactor inputHours nAddrs haveChange
      = DistributeSpendHours maxAlloc RequiredFee BurnFactor inputHours nAddrs haveChange := by
  rw [DistributeSpendHours_closed maxAlloc RequiredFee BurnFactor inputHours nAddrs haveChange
    hin hn hmake hfee]
  obtain ⟨h1, h2, h3⟩ := checked_prefix RequiredFee BurnFactor inputHours haveChange hin hfee
  have hcle := changeOf_le haveChange (inputHours - RequiredFee inputHours BurnFactor)
  unfold DistributeSpendHoursChecked
  simp only [h1, h2, h3, hmake, not_true_eq_false, if_false]
  generalize hR : inputHours - RequiredFee inputHours BurnFactor = R at hcle
  generalize hC : changeOf haveChange R = C at hcle
  generalize hA : R - C = A
  have hRlt : R < U64 := by omega
  have hAlt : A < U64 := by omega
  have hmul : A / nAddrs * nAddrs ≤ A := Nat.div_mul_le_self A nAddrs
  have hdm : A / nAddrs * nAddrs + A % nAddrs = A := by
    rw [Nat.mul_comm]; exact Nat.div_add_mod A nAddrs
  have hmodlt : A % nAddrs < nAddrs := Nat.mod_lt _ (by omega)
  have hm : mulChecked (A / nAddrs) nAddrs = .ok (A / nAddrs * nAddrs) := by
    have : A / nAddrs * nAddrs < U64 := by omega
    simp [mulChecked, this]
  have hs : subChecked A (A / nAddrs * nAddrs) = .ok (A % nAddrs) := by
    simp only [subChecked, hmul, if_true]
    congr 1
    omega
  have hloop : incrLoopChecked (A % nAddrs) 0 (List.replicate nAddrs (A / nAddrs))
      = .ok (List.replicate (A % nAddrs) (A / nAddrs + 1)
          ++ List.replicate (nAddrs - A % nAddrs) (A / nAddrs)) := by
    have h := incrLoopChecked_append (A % nAddrs) [] (List.replicate nAddrs (A / nAddrs))
      (by simp; omega)
      (by
        intro a ha
        rw [List.take_replicate] at ha
        obtain ⟨hne, rfl⟩ := List.mem_replicate.mp ha
        exact share_succ_lt A nAddrs hn hAlt (by omega))
    simp only [List.length_nil, List.nil_append] at h
    rw [h, List.take_replicate, List.drop_replicate, List.map_replicate,
      Nat.min_eq_left (le_of_lt hmodlt)]
  have hsum := two_blocks_sum A nAddrs hn
  have hsl : sumLoopChecked (List.replicate (A % nAddrs) (A / nAddrs + 1)
      ++ List.replicate (nAddrs - A % nAddrs) (A / nAddrs)) 0 = .ok A := by
    rw [sumLoopChecked_eq _ 0 (by omega), hsum, Nat.zero_add]
  have hadd : addChecked A C = .ok R := by
    have : A + C < U64 := by omega
    simp only [addChecked, this, if_true]
    congr 1
    omega
  rw [if_neg (by omega)]
  simp only [hm, hs, hloop, hsl, hadd]
  simp

/-- A length that `make` refuses stops the checked variant with the same
panic, no operation before it having wrapped. -/
theorem DistributeSpendHoursChecked_refused (maxAlloc : Nat) (RequiredFee : Nat → Nat → Nat)
    (BurnFactor : Nat) (inputHours nAddrs : Nat) (haveChange : Bool)
    (hin : inputHours < U64) (hn : 1 ≤ nAddrs)
    (hmake : makesliceOK maxAlloc nAddrs = false)
    (hfee : RequiredFee inputHours BurnFactor ≤ inputHours) :
    DistributeSpendHoursChecked maxAlloc RequiredFee BurnFactor inputHours nAddrs haveChange
      = .error .makeSliceLen := by
  obtain ⟨h1, h2, h3⟩ := checked_prefix RequiredFee BurnFactor inputHours haveChange hin hfee
  unfold DistributeSpendHoursChecked
  simp only [h1, h2, h3, hmake]
  rw [if_neg (by omega)]
  simp
/-! ## Comparing the hours of two outputs -/

/-- Entry `i` of a result of the branch `hours >= len(coins)`. -/
theorem plenty_getD {coins : List Nat} {hours : Nat} {r : List Nat}
    (hh : hours < U64) (hge : coins.length ≤ hours)
    (hr : DistributeCoinHoursProportional coins hours = .ok r)
    (i : Nat) (hi : i < coins.length) :
    r.getD i 0 = 1 + coins[i] * (hours - coins.length) / coins.sum
      + if i < hours - coins.length - floorSum coins (hours - coins.length) then 1 else 0 := by
  obtain ⟨hrs, hle, _⟩ := plenty_result hh hge hr
  have hslen := length_shares coins (hours - coins.length)
  rw [List.getD_eq_getElem?_getD, hrs, getElem?_bump _ _ i (by omega) (by omega)]
  simp only [shares, List.getElem_map, Option.getD_some]

/-- Entry `i` of a result of the scarcity branch. -/
theorem scarce_getD {coins : List Nat} {hours : Nat} {r : List Nat}
    (h0 : 0 < hours) (hlt : hours < coins.length)
    (hr : DistributeCoinHoursProportional coins hours = .ok r)
    (i : Nat) (hi : i < coins.length) :
    r.getD i 0
      = if i ∈ (sortStable (newUnsortableHighToLowUint64 coins)).indices.take hours
        then 1 else 0 := by
  have hvalid := (valid_of_ok hr).2
  rw [DistributeCoinHoursProportional_scarce coins hours hvalid h0 hlt] at hr
  rw [← Except.ok.inj hr, List.getD_eq_getElem?_getD,
    getElem?_markAll _ _ _ (by simpa using hi), List.getElem?_replicate_of_lt hi]
  split <;> rfl

/-- A position outside the first `m` sorted indices is among the others. -/
theorem mem_drop_sorted_indices (coins : List Nat) (m i : Nat) (hi : i < coins.length)
    (hni : i ∉ (sortStable (newUnsortableHighToLowUint64 coins)).indices.take m) :
    i ∈ (sortStable (newUnsortableHighToLowUint64 coins)).indices.drop m := by
  have hmem : i ∈ (sortStable (newUnsortableHighToLowUint64 coins)).indices :=
    (sorted_indices_perm coins).mem_iff.mpr (by simpa using hi)
  rw [← List.take_append_drop m (sortStable (newUnsortableHighToLowUint64 coins)).indices,
    List.mem_append] at hmem
  exact hmem.resolve_left hni

/-- How the hours of an output compare with those of an output holding at
least as many coins: at most one hour more, and no more at all when the
larger output comes first, or the hours are at most one per output and the
coins differ, or the second remainder pass does not separate the two. -/
theorem compare_hours {coins : List Nat} {hours : Nat} {r : List Nat}
    (hh : hours < U64)
    (hr : DistributeCoinHoursProportional coins hours = .ok r)
    (i j : Nat) (hi : i < coins.length) (hj : j < coins.length)
    (hc : coins[j] ≤ coins[i]) :
    r.getD j 0 ≤ r.getD i 0 + 1
    ∧ (i < j → r.getD j 0 ≤ r.getD i 0)
    ∧ (coins[j] < coins[i] → hours ≤ coins.length → r.getD j 0 ≤ r.getD i 0)
    ∧ (¬ (j < hours - coins.length - floorSum coins (hours - coins.length)
          ∧ hours - coins.length - floorSum coins (hours - coins.length) ≤ i) →
        coins.length ≤ hours → r.getD j 0 ≤ r.getD i 0) := by
  obtain ⟨hne, hvalid⟩ := valid_of_ok hr
  rcases Nat.lt_or_ge hours coins.length with hlt | hge
  · rcases Nat.eq_zero_or_pos hours with h0 | h0
    · subst h0
      rw [DistributeCoinHoursProportional_zero coins hne hvalid] at hr
      have hz : ∀ k, r.getD k 0 = 0 := by
        intro k
        rw [← Except.ok.inj hr, List.getD_eq_getElem?_getD, List.getElem?_replicate]
        split <;> rfl
      rw [hz i, hz j]
      exact ⟨by omega, fun _ => le_refl _, fun _ _ => le_refl _, fun _ _ => le_refl _⟩
    · have hri := scarce_getD h0 hlt hr i hi
      have hrj := scarce_getD h0 hlt hr j hj
      have key : (coins[j] < coins[i] ∨ i < j) → r.getD j 0 ≤ r.getD i 0 := by
        intro hor
        rw [hri, hrj]
        by_cases hjm : j ∈ (sortStable (newUnsortableHighToLowUint64 coins)).indices.take hours
        · by_cases him : i ∈ (sortStable (newUnsortableHighToLowUint64 coins)).indices.take hours
          · simp [hjm, him]
          · have hb := top_indices_before coins hours i j hi hj hjm
              (mem_drop_sorted_indices coins hours i hi him)
            unfold Before at hb
            simp only at hb
            omega
        · simp [hjm]
      refine ⟨?_, fun h => key (Or.inr h), fun h _ => key (Or.inl h), fun _ h => ?_⟩
      · rw [hri, hrj]
        split <;> split <;> omega
      · omega
  · have hri := plenty_getD hh hge hr i hi
    have hrj := plenty_getD hh hge hr j hj
    have hfrac : coins[j] * (hours - coins.length) / coins.sum
        ≤ coins[i] * (hours - coins.length) / coins.sum :=
      Nat.div_le_div_right (Nat.mul_le_mul_right _ hc)
    rw [hri, hrj]
    refine ⟨?_, ?_, ?_, ?_⟩
    · split <;> split <;> omega
    · intro hij
      split <;> split <;> omega
    · intro _ hle
      have h0 : hours - coins.length = 0 := by omega
      simp [h0]
    · intro hsep _
      split <;> split <;> omega
/-! ## The stable order is unique -/

/-- Any arrangement of the coins with their positions that is in stable
descending order is the one the sort produces. -/
theorem sorted_pairs_unique (coins : List Nat) (ps : List (Nat × Nat))
    (hperm : ps.Perm (coins.zip (List.range coins.length)))
    (hsorted : ps.Pairwise Before) :
    insertAll [] (coins.zip (List.range coins.length)) = ps := by
  haveI : IsAntisymm (Nat × Nat) Before :=
    ⟨fun p q h1 h2 => by unfold Before at h1 h2; exfalso; omega⟩
  exact List.eq_of_perm_of_sorted ((sorted_pairs_perm coins).trans hperm.symm)
    (sorted_pairs_before coins) hsorted
/-! ## Claims about `DistributeSpendHours` -/

/-- C1: for every `inputHours`, every `nAddrs ≥ 1` and both values of
`haveChange`, when the required fee does not exceed `inputHours`, every triple
`(changeHours, addrHours, spendHours)` that `DistributeSpendHours` returns has
`changeHours + Σ addrHours = inputHours - feeHours` over the natural numbers,
and `spendHours` is that same number; and the call does return a triple
whenever `make` accepts the length `nAddrs`. -/
theorem spend_hours_conserved (maxAlloc : Nat) (RequiredFee : Nat → Nat → Nat)
    (BurnFactor : Nat) (inputHours nAddrs : Nat) (haveChange : Bool)
    (hin : inputHours < U64) (hn : 1 ≤ nAddrs)
    (hfee : RequiredFee inputHours BurnFactor ≤ inputHours) :
    (∀ changeHours addrHours spendHours,
      DistributeSpendHours maxAlloc RequiredFee BurnFactor inputHours nAddrs haveChange
        = .ok (changeHours, addrHours, spendHours) →
      changeHours + addrHours.sum = inputHours - RequiredFee inputHours BurnFactor
      ∧ spendHours = inputHours - RequiredFee inputHours BurnFactor)
    ∧ (makesliceOK maxAlloc nAddrs = true →
        ∃ changeHours addrHours spendHours,
          DistributeSpendHours maxAlloc RequiredFee BurnFactor inputHours nAddrs haveChange
            = .ok (changeHours, addrHours, spendHours)) := by
  constructor
  · intro changeHours addrHours spendHours hres
    have hmake := (DistributeSpendHours_ok_inv hres).2
    rw [DistributeSpendHours_closed maxAlloc RequiredFee BurnFactor inputHours nAddrs haveChange
      hin hn hmake hfee] at hres
    have h := Except.ok.inj hres
    simp only [Prod.mk.injEq] at h
    obtain ⟨rfl, rfl, rfl⟩ := h
    have hc := changeOf_le haveChange (inputHours - RequiredFee inputHours BurnFactor)
    rw [two_blocks_sum _ _ hn]
    exact ⟨by omega, rfl⟩
  · intro hmake
    exact ⟨_, _, _, DistributeSpendHours_closed maxAlloc RequiredFee BurnFactor inputHours nAddrs
      haveChange hin hn hmake hfee⟩

/-- Witness of C1: 22 input hours, burn factor 2, three destinations and a
change output, with the allocation limit `2^48` of a 64-bit platform. -/
theorem spend_hours_conserved_witness :
    DistributeSpendHours (2 ^ 48) ceilFee 2 22 3 true = .ok (6, [2, 2, 1], 11)
    ∧ (6 + [2, 2, 1].sum = 22 - ceilFee 22 2 ∧ 11 = 22 - ceilFee 22 2)
    ∧ ∃ changeHours addrHours spendHours,
        DistributeSpendHours (2 ^ 48) ceilFee 2 22 3 true
          = .ok (changeHours, addrHours, spendHours) :=
  ⟨by decide,
    (spend_hours_conserved (2 ^ 48) ceilFee 2 22 3 true (by decide) (by decide) (by decide)).1
      6 [2, 2, 1] 11 (by decide),
    (spend_hours_conserved (2 ^ 48) ceilFee 2 22 3 true (by decide) (by decide) (by decide)).2
      (by decide)⟩

/-- C3: with `remainingHours = inputHours - feeHours`, every triple returned
with `haveChange = true` has `changeHours = remainingHours / 2 + remainingHours % 2`
(the change output gets the odd hour) and the destinations together get
`remainingHours / 2`; every triple returned with `haveChange = false` has
`changeHours = 0`; and both calls do return whenever `make` accepts the length
`nAddrs`. -/
theorem change_gets_ceiling_half (maxAlloc : Nat) (RequiredFee : Nat → Nat → Nat)
    (BurnFactor : Nat) (inputHours nAddrs : Nat)
    (hin : inputHours < U64) (hn : 1 ≤ nAddrs)
    (hfee : RequiredFee inputHours BurnFactor ≤ inputHours) :
    (∀ changeHours addrHours spendHours,
      DistributeSpendHours maxAlloc RequiredFee BurnFactor inputHours nAddrs true
        = .ok (changeHours, addrHours, spendHours) →
      changeHours = (inputHours - RequiredFee inputHours BurnFactor) / 2
                      + (inputHours - RequiredFee inputHours BurnFactor) % 2
      ∧ addrHours.sum = (inputHours - RequiredFee inputHours BurnFactor) / 2)
    ∧ (∀ changeHours addrHours spendHours,
      DistributeSpendHours maxAlloc RequiredFee BurnFactor inputHours nAddrs false
        = .ok (changeHours, addrHours, spendHours) →
      changeHours = 0)
    ∧ (makesliceOK maxAlloc nAddrs = true →
        (∃ addrHours spendHours,
          DistributeSpendHours maxAlloc RequiredFee BurnFactor inputHours nAddrs true
            = .ok ((inputHours - RequiredFee inputHours BurnFactor) / 2
                    + (inputHours - RequiredFee inputHours BurnFactor) % 2,
                  addrHours, spendHours))
        ∧ (∃ addrHours spendHours,
          DistributeSpendHours maxAlloc RequiredFee BurnFactor inputHours nAddrs false
            = .ok (0, addrHours, spendHours))) := by
  refine ⟨?_, ?_, ?_⟩
  · intro changeHours addrHours spendHours hres
    have hmake := (DistributeSpendHours_ok_inv hres).2
    rw [DistributeSpendHours_closed maxAlloc RequiredFee BurnFactor inputHours nAddrs true
      hin hn hmake hfee] at hres
    have h := Except.ok.inj hres
    simp only [Prod.mk.injEq] at h
    obtain ⟨rfl, rfl, rfl⟩ := h
    refine ⟨by simp [changeOf], ?_⟩
    rw [two_blocks_sum _ _ hn]
    simp only [changeOf, if_true]
    omega
  · intro changeHours addrHours spendHours hres
    have hmake := (DistributeSpendHours_ok_inv hres).2
    rw [DistributeSpendHours_closed maxAlloc RequiredFee BurnFactor inputHours nAddrs false
      hin hn hmake hfee] at hres
    have h := Except.ok.inj hres
    simp only [Prod.mk.injEq] at h
    obtain ⟨rfl, rfl, rfl⟩ := h
    simp [changeOf]
  · intro hmake
    exact ⟨⟨_, _, DistributeSpendHours_closed maxAlloc RequiredFee BurnFactor inputHours nAddrs
        true hin hn hmake hfee⟩,
      ⟨_, _, DistributeSpendHours_closed maxAlloc RequiredFee BurnFactor inputHours nAddrs
        false hin hn hmake hfee⟩⟩

/-- Witness of C3: 11 hours remain of 22; with a change output it gets 6 and
the destinations 5 together, without one it gets 0 and they get all 11. -/
theorem change_gets_ceiling_half_witness :
    DistributeSpendHours (2 ^ 48) ceilFee 2 22 3 true = .ok (6, [2, 2, 1], 11)
    ∧ DistributeSpendHours (2 ^ 48) ceilFee 2 22 3 false = .ok (0, [4, 4, 3], 11)
    ∧ (6 = (22 - ceilFee 22 2) / 2 + (22 - ceilFee 22 2) % 2
        ∧ [2, 2, 1].sum = (22 - ceilFee 22 2) / 2)
    ∧ (0 : Nat) = 0 :=
  ⟨by decide, by decide,
    (change_gets_ceiling_half (2 ^ 48) ceilFee 2 22 3 (by decide) (by decide) (by decide)).1
      6 [2, 2, 1] 11 (by decide),
    (change_gets_ceiling_half (2 ^ 48) ceilFee 2 22 3 (by decide) (by decide) (by decide)).2.1
      0 [4, 4, 3] 11 (by decide)⟩

/-- C4: with `A = remainingHours - changeHours`, the `addrHours` of every
returned triple has length `nAddrs`, and entry `i` is `A / nAddrs + 1` when
`i < A % nAddrs` and `A / nAddrs` otherwise: the extra hours go to the
earliest destinations; and the call does return a triple whenever `make`
accepts the length `nAddrs`. -/
theorem addr_hours_shares (maxAlloc : Nat) (RequiredFee : Nat → Nat → Nat)
    (BurnFactor : Nat) (inputHours nAddrs : Nat) (haveChange : Bool)
    (hin : inputHours < U64) (hn : 1 ≤ nAddrs)
    (hfee : RequiredFee inputHours BurnFactor ≤ inputHours) :
    (∀ changeHours addrHours spendHours,
      DistributeSpendHours maxAlloc RequiredFee BurnFactor inputHours nAddrs haveChange
        = .ok (changeHours, addrHours, spendHours) →
      addrHours.length = nAddrs
      ∧ ∀ i, i < nAddrs →
          addrHours[i]? = some
            (if i < (inputHours - RequiredFee inputHours BurnFactor - changeHours) % nAddrs
             then (inputHours - RequiredFee inputHours BurnFactor - changeHours) / nAddrs + 1
             else (inputHours - RequiredFee inputHours BurnFactor - changeHours) / nAddrs))
    ∧ (makesliceOK maxAlloc nAddrs = true →
        ∃ changeHours addrHours spendHours,
          DistributeSpendHours maxAlloc RequiredFee BurnFactor inputHours nAddrs haveChange
            = .ok (changeHours, addrHours, spendHours)) := by
  constructor
  · intro changeHours addrHours spendHours hres
    have hmake := (DistributeSpendHours_ok_inv hres).2
    rw [DistributeSpendHours_closed maxAlloc RequiredFee BurnFactor inputHours nAddrs haveChange
      hin hn hmake hfee] at hres
    have h := Except.ok.inj hres
    simp only [Prod.mk.injEq] at h
    obtain ⟨rfl, rfl, rfl⟩ := h
    have hmod := Nat.mod_lt (inputHours - RequiredFee inputHours BurnFactor
      - changeOf haveChange (inputHours - RequiredFee inputHours BurnFactor)) hn
    refine ⟨?_, ?_⟩
    · simp only [List.length_append, List.length_replicate]
      omega
    · intro i hi
      exact getElem?_two_blocks _ _ _ i (by omega)
  · intro hmake
    exact ⟨_, _, _, DistributeSpendHours_closed maxAlloc RequiredFee BurnFactor inputHours nAddrs
      haveChange hin hn hmake hfee⟩

/-- Witness of C4: 11 remaining hours, a change output and three destinations
give `changeHours = 6` and `addrHours = [2, 2, 1]`. -/
theorem addr_hours_shares_witness :
    DistributeSpendHours (2 ^ 48) ceilFee 2 22 3 true = .ok (6, [2, 2, 1], 11)
    ∧ ([2, 2, 1].length = 3
      ∧ ∀ i, i < 3 →
          [2, 2, 1][i]? = some
            (if i < (22 - ceilFee 22 2 - 6) % 3
             then (22 - ceilFee 22 2 - 6) / 3 + 1
             else (22 - ceilFee 22 2 - 6) / 3)) :=
  ⟨by decide,
    (addr_hours_shares (2 ^ 48) ceilFee 2 22 3 true (by decide) (by decide) (by decide)).1
      6 [2, 2, 1] 11 (by decide)⟩
/-! ## Claims about the inputs `DistributeCoinHoursProportional` rejects -/

/-- C5: for every `hours`, `DistributeCoinHoursProportional` called with an
empty coins sequence returns its empty-input error and no result; in
particular for `coins = []`, `hours = 5`. -/
theorem empty_coins_rejected :
    (∀ hours : Nat, DistributeCoinHoursProportional [] hours = .error .emptyCoins)
    ∧ DistributeCoinHoursProportional [] 5 = .error .emptyCoins :=
  ⟨DistributeCoinHoursProportional_nil, DistributeCoinHoursProportional_nil 5⟩

/-- C6: for every coins sequence with an element equal to 0 at any position
and every `hours`, `DistributeCoinHoursProportional` returns an error of its
validation loop and no result. -/
theorem zero_coin_rejected (coins : List Nat) (hours : Nat) (hzero : 0 ∈ coins) :
    ∃ e, DistributeCoinHoursProportional coins hours = .error e
      ∧ (e = .zeroCoin ∨ e = .addOverflow ∨ e = .int64Range) := by
  apply DistributeCoinHoursProportional_invalid coins hours (List.ne_nil_of_mem hzero)
  intro h
  exact absurd (h.1 0 hzero).1 (by decide)

/-- Witness of C6: `coins = [5, 0, 3]`, `hours = 2` is rejected for its zero
coin. -/
theorem zero_coin_rejected_witness :
    DistributeCoinHoursProportional [5, 0, 3] 2 = .error .zeroCoin
    ∧ ∃ e, DistributeCoinHoursProportional [5, 0, 3] 2 = .error e
      ∧ (e = .zeroCoin ∨ e = .addOverflow ∨ e = .int64Range) :=
  ⟨by decide, zero_coin_rejected [5, 0, 3] 2 (by decide)⟩

/-- C7: for every coins sequence whose sum exceeds `2^64 - 1` or that holds a
coin above `2^63 - 1`, and every `hours`, `DistributeCoinHoursProportional`
returns an error of its validation loop and no result. -/
theorem overflowing_coins_rejected (coins : List Nat) (hours : Nat)
    (hover : 2 ^ 64 - 1 < coins.sum ∨ ∃ c ∈ coins, 2 ^ 63 - 1 < c) :
    ∃ e, DistributeCoinHoursProportional coins hours = .error e
      ∧ (e = .zeroCoin ∨ e = .addOverflow ∨ e = .int64Range) := by
  have hne : coins ≠ [] := by
    rintro rfl
    rcases hover with h | ⟨c, hc, _⟩
    · simp at h
    · simp at hc
  apply DistributeCoinHoursProportional_invalid coins hours hne
  rintro ⟨hall, hsum⟩
  rcases hover with h | ⟨c, hc, hlt⟩
  · simp only [U64] at hsum; omega
  · have := (hall c hc).2
    simp only [I64] at this; omega

/-- Witness of C7: two coins of `2^63 - 1` and a coin of 2 sum to `2^64`, and
a single coin of `2^63` does not convert. -/
theorem overflowing_coins_rejected_witness :
    (∃ e, DistributeCoinHoursProportional [2 ^ 63 - 1, 2 ^ 63 - 1, 2] 7 = .error e
      ∧ (e = .zeroCoin ∨ e = .addOverflow ∨ e = .int64Range))
    ∧ DistributeCoinHoursProportional [2 ^ 63 - 1, 2 ^ 63 - 1, 2] 7 = .error .addOverflow
    ∧ DistributeCoinHoursProportional [2 ^ 63] 7 = .error .int64Range :=
  ⟨overflowing_coins_rejected [2 ^ 63 - 1, 2 ^ 63 - 1, 2] 7 (Or.inl (by decide)),
    by decide, by decide⟩
/-! ## Claims about the results of `DistributeCoinHoursProportional` -/

/-- C8: for `0 < hours < len(coins)`, a result `r` has the length of `coins`,
every entry is 0 or 1, exactly `hours` entries are 1, the entries that are 1
are those at the first `hours` indices of the stably sorted coins, and
whenever `r[j] = 1` and `r[i] = 0`, either `coins[j] > coins[i]`, or
`coins[j] = coins[i]` and `j < i`. -/
theorem scarce_hours_to_largest (coins : List Nat) (hours : Nat) (r : List Nat)
    (h0 : 0 < hours) (hlt : hours < coins.length)
    (hr : DistributeCoinHoursProportional coins hours = .ok r) :
    r.length = coins.length
    ∧ (∀ x ∈ r, x = 0 ∨ x = 1)
    ∧ r.count 1 = hours
    ∧ (∀ j, j < coins.length →
        (r[j]? = some 1
          ↔ j ∈ (sortStable (newUnsortableHighToLowUint64 coins)).indices.take hours))
    ∧ ∀ (i j : Nat) (hi : i < coins.length) (hj : j < coins.length),
        r[j]? = some 1 → r[i]? = some 0 →
          coins[j] > coins[i] ∨ (coins[j] = coins[i] ∧ j < i) := by
  have hvalid := (valid_of_ok hr).2
  rw [DistributeCoinHoursProportional_scarce coins hours hvalid h0 hlt] at hr
  have hr' := (Except.ok.inj hr).symm
  have hperm := sorted_indices_perm coins
  have hentry : ∀ j, j < coins.length → r[j]? = some
      (if j ∈ (sortStable (newUnsortableHighToLowUint64 coins)).indices.take hours
        then 1 else 0) := by
    intro j hj
    rw [hr', getElem?_markAll _ _ _ (by simpa using hj), List.getElem?_replicate_of_lt hj]
    split <;> rfl
  have hiff : ∀ j, j < coins.length →
      (r[j]? = some 1
        ↔ j ∈ (sortStable (newUnsortableHighToLowUint64 coins)).indices.take hours) := by
    intro j hj
    rw [hentry j hj]
    split <;> simp [*]
  refine ⟨by rw [hr', length_markAll]; simp, ?_, ?_, hiff, ?_⟩
  · intro x hx
    rw [hr', markAll_zero_shape] at hx
    obtain ⟨j, _, rfl⟩ := List.mem_map.mp hx
    split
    · exact Or.inr rfl
    · exact Or.inl rfl
  · rw [hr', markAll_zero_shape]
    exact count_marked _ _ _ hperm (le_of_lt hlt)
  · intro i j hi hj h1 h2
    have hjm := (hiff j hj).mp h1
    have hni : i ∉ (sortStable (newUnsortableHighToLowUint64 coins)).indices.take hours := by
      intro hin
      rw [(hiff i hi).mpr hin] at h2
      exact absurd h2 (by simp)
    have hmem : i ∈ (sortStable (newUnsortableHighToLowUint64 coins)).indices :=
      hperm.mem_iff.mpr (by simpa using hi)
    rw [← List.take_append_drop hours (sortStable (newUnsortableHighToLowUint64 coins)).indices,
      List.mem_append] at hmem
    have him := hmem.resolve_left hni
    exact top_indices_before coins hours i j hi hj hjm him

/-- Witness of C8: `coins = [5, 50, 1]`, `hours = 2` gives `[1, 1, 0]`, the
sorted indices being `[1, 0, 2]`. -/
theorem scarce_hours_to_largest_witness :
    DistributeCoinHoursProportional [5, 50, 1] 2 = .ok [1, 1, 0]
    ∧ (sortStable (newUnsortableHighToLowUint64 [5, 50, 1])).indices = [1, 0, 2]
    ∧ ([1, 1, 0].length = [5, 50, 1].length
      ∧ (∀ x ∈ [1, 1, 0], x = 0 ∨ x = 1)
      ∧ [1, 1, 0].count 1 = 2
      ∧ (∀ j, j < [5, 50, 1].length →
          ([1, 1, 0][j]? = some 1
            ↔ j ∈ (sortStable (newUnsortableHighToLowUint64 [5, 50, 1])).indices.take 2))
      ∧ ∀ (i j : Nat) (hi : i < [5, 50, 1].length) (hj : j < [5, 50, 1].length),
          [1, 1, 0][j]? = some 1 → [1, 1, 0][i]? = some 0 →
            [5, 50, 1][j] > [5, 50, 1][i] ∨ ([5, 50, 1][j] = [5, 50, 1][i] ∧ j < i)) :=
  ⟨by decide, by decide,
    scarce_hours_to_largest [5, 50, 1] 2 [1, 1, 0] (by decide) (by decide) (by decide)⟩

/-- C9: for `hours ≥ len(coins)`, with `n = len(coins)`, `h = hours - n`,
`T = Σ coins`, `frac_i = ⌊coins[i] * h / T⌋` over the natural numbers and
`rem = h - Σ frac_i`, a result `r` has length `n` and
`r[i] = 1 + frac_i + (1 if i < rem, else 0)` for every index `i`. -/
theorem plenty_hours_shares (coins : List Nat) (hours : Nat) (r : List Nat)
    (hh : hours < U64) (hge : coins.length ≤ hours)
    (hr : DistributeCoinHoursProportional coins hours = .ok r) :
    r.length = coins.length
    ∧ ∀ (i : Nat) (hi : i < coins.length),
        r[i]? = some (1 + coins[i] * (hours - coins.length) / coins.sum
          + if i < (hours - coins.length)
                - (coins.map (fun c => c * (hours - coins.length) / coins.sum)).sum
            then 1 else 0) := by
  obtain ⟨hrs, hle, _⟩ := plenty_result hh hge hr
  have hslen : (shares coins (hours - coins.length)).length = coins.length := by
    simp [shares]
  refine ⟨by rw [hrs, length_bump, hslen], ?_⟩
  intro i hi
  rw [hrs, getElem?_bump _ _ i (by omega) (by omega)]
  simp only [shares, List.getElem_map]
  rfl

/-- Witness of C9: `coins = [10, 20, 30]`, `hours = 6` gives `[2, 2, 2]`. -/
theorem plenty_hours_shares_witness :
    DistributeCoinHoursProportional [10, 20, 30] 6 = .ok [2, 2, 2]
    ∧ ([2, 2, 2].length = [10, 20, 30].length
      ∧ ∀ (i : Nat) (hi : i < [10, 20, 30].length),
          [2, 2, 2][i]? = some (1 + [10, 20, 30][i] * (6 - [10, 20, 30].length) / [10, 20, 30].sum
            + if i < (6 - [10, 20, 30].length)
                  - ([10, 20, 30].map
                      (fun c => c * (6 - [10, 20, 30].length) / [10, 20, 30].sum)).sum
              then 1 else 0)) :=
  ⟨by decide, plenty_hours_shares [10, 20, 30] 6 [2, 2, 2] (by decide) (by decide) (by decide)⟩

/-- C10: for `hours ≥ len(coins)`, every element of a result is at least 1. -/
theorem plenty_hours_at_least_one (coins : List Nat) (hours : Nat) (r : List Nat)
    (hh : hours < U64) (hge : coins.length ≤ hours)
    (hr : DistributeCoinHoursProportional coins hours = .ok r) :
    ∀ x ∈ r, 1 ≤ x := by
  obtain ⟨hrs, _, _⟩ := plenty_result hh hge hr
  intro x hx
  rw [hrs] at hx
  unfold bump at hx
  rcases List.mem_append.mp hx with h1 | h1
  · obtain ⟨a, _, rfl⟩ := List.mem_map.mp h1
    omega
  · obtain ⟨c, _, rfl⟩ := List.mem_map.mp (List.mem_of_mem_drop h1)
    show 1 ≤ 1 + c * (hours - coins.length) / coins.sum
    exact Nat.le_add_right 1 _

/-- Witness of C10: `coins = [1, 1000]`, `hours = 2` gives `[1, 1]`, and
`hours = 5` gives `[2, 3]`. -/
theorem plenty_hours_at_least_one_witness :
    DistributeCoinHoursProportional [1, 1000] 2 = .ok [1, 1]
    ∧ DistributeCoinHoursProportional [1, 1000] 5 = .ok [2, 3]
    ∧ ∀ x ∈ [2, 3], 1 ≤ x :=
  ⟨by decide, by decide,
    plenty_hours_at_least_one [1, 1000] 5 [2, 3] (by decide) (by decide) (by decide)⟩

/-- C2: whenever `DistributeCoinHoursProportional` returns a result, the coins
are non-empty and all positive, and the elements of the result add up, over
the natural numbers, to `hours` exactly. -/
theorem coin_hours_conserved (coins : List Nat) (hours : Nat) (r : List Nat)
    (hh : hours < U64)
    (hr : DistributeCoinHoursProportional coins hours = .ok r) :
    coins ≠ [] ∧ (∀ c ∈ coins, 0 < c) ∧ r.sum = hours := by
  obtain ⟨hne, hvalid⟩ := valid_of_ok hr
  refine ⟨hne, fun c hc => (hvalid.1 c hc).1, ?_⟩
  rcases Nat.lt_or_ge hours coins.length with hlt | hge
  · rcases Nat.eq_zero_or_pos hours with h0 | h0
    · subst h0
      rw [DistributeCoinHoursProportional_zero coins hne hvalid] at hr
      rw [← Except.ok.inj hr]
      simp
    · rw [DistributeCoinHoursProportional_scarce coins hours hvalid h0 hlt] at hr
      rw [← Except.ok.inj hr, markAll_zero_shape, sum_eq_count_one]
      · exact count_marked _ _ _ (sorted_indices_perm coins) (le_of_lt hlt)
      · intro x hx
        obtain ⟨j, _, rfl⟩ := List.mem_map.mp hx
        split
        · exact Or.inr rfl
        · exact Or.inl rfl
  · obtain ⟨hrs, hle, hfs⟩ := plenty_result hh hge hr
    have hslen : (shares coins (hours - coins.length)).length = coins.length := by
      simp [shares]
    rw [hrs, sum_bump _ _ (by omega), sum_shares]
    omega

/-- Witness of C2: `[10, 20, 30]` with 6 hours, `[5, 50, 1]` with 2 hours and
`[3, 4]` with 1000 hours. -/
theorem coin_hours_conserved_witness :
    DistributeCoinHoursProportional [3, 4] 1000 = .ok [429, 571]
    ∧ ([3, 4] ≠ [] ∧ (∀ c ∈ [3, 4], 0 < c) ∧ [429, 571].sum = 1000)
    ∧ ([5, 50, 1] ≠ [] ∧ (∀ c ∈ [5, 50, 1], 0 < c) ∧ [1, 1, 0].sum = 2) :=
  ⟨by decide,
    coin_hours_conserved [3, 4] 1000 [429, 571] (by decide) (by decide),
    coin_hours_conserved [5, 50, 1] 2 [1, 1, 0] (by decide) (by decide)⟩

/-! ## Further claims -/

/-- C11: a result of `DistributeCoinHoursProportional(coins, 0)` has the
length of `coins` and every element is 0. -/
theorem zero_hours_all_zero (coins : List Nat) (r : List Nat)
    (hr : DistributeCoinHoursProportional coins 0 = .ok r) :
    r.length = coins.length ∧ ∀ x ∈ r, x = 0 := by
  obtain ⟨hne, hvalid⟩ := valid_of_ok hr
  rw [DistributeCoinHoursProportional_zero coins hne hvalid] at hr
  rw [← Except.ok.inj hr]
  exact ⟨by simp, fun x hx => (List.mem_replicate.mp hx).2⟩

/-- Witness of C11: `coins = [5, 50, 1]`, `hours = 0` gives `[0, 0, 0]`. -/
theorem zero_hours_all_zero_witness :
    DistributeCoinHoursProportional [5, 50, 1] 0 = .ok [0, 0, 0]
    ∧ ([0, 0, 0].length = [5, 50, 1].length ∧ ∀ x ∈ [0, 0, 0], x = 0) :=
  ⟨by decide, zero_hours_all_zero [5, 50, 1] [0, 0, 0] (by decide)⟩

/-- C13, as stated, fails: with 100 input hours, burn factor 2 and
`nAddrs = 2^62`, a length whose `8 * 2^62` bytes overflow a `uintptr` whatever
the allocation limit, `make` panics and `DistributeSpendHours` does not return
normally. -/
theorem spend_hours_make_panics :
    (1 ≤ 2 ^ 62 ∧ 100 < U64 ∧ ceilFee 100 2 ≤ 100)
    ∧ DistributeSpendHours (2 ^ 48) ceilFee 2 100 (2 ^ 62) true = .error .makeSliceLen
    ∧ ¬ ∃ res, DistributeSpendHours (2 ^ 48) ceilFee 2 100 (2 ^ 62) true = .ok res := by
  have h : DistributeSpendHours (2 ^ 48) ceilFee 2 100 (2 ^ 62) true = .error .makeSliceLen :=
    DistributeSpendHours_refused (2 ^ 48) ceilFee 2 100 (2 ^ 62) true (by decide) (by decide)
  refine ⟨⟨by decide, by decide, by decide⟩, h, ?_⟩
  rintro ⟨res, hres⟩
  rw [h] at hres
  exact absurd hres (by simp)

/-- C13, amended: with at least one destination and a fee that does not exceed
the input, `DistributeSpendHours` returns normally whenever `make` accepts the
length `nAddrs`: the returned `spendHours` is `remainingHours`, so the
consistency check does not fire, and the number of rounds of the extra-hours
loop is below `nAddrs`, so its index stays inside `addrHours`.  When `make`
refuses the length the call panics with `makeslice: len out of range`.  In
neither case is the outcome the panic of the consistency check, of an index
out of range or of a division by zero. -/
theorem spend_hours_returns_normally (maxAlloc : Nat) (RequiredFee : Nat → Nat → Nat)
    (BurnFactor : Nat) (inputHours nAddrs : Nat) (haveChange : Bool)
    (hin : inputHours < U64) (hn : 1 ≤ nAddrs)
    (hfee : RequiredFee inputHours BurnFactor ≤ inputHours) :
    (makesliceOK maxAlloc nAddrs = true →
      ∃ changeHours addrHours spendHours,
        DistributeSpendHours maxAlloc RequiredFee BurnFactor inputHours nAddrs haveChange
          = .ok (changeHours, addrHours, spendHours)
        ∧ spendHours = subU64 inputHours (RequiredFee inputHours BurnFactor)
        ∧ addrHours.length = nAddrs
        ∧ subU64 (subU64 spendHours changeHours)
            (mulU64 (subU64 spendHours changeHours / nAddrs) nAddrs) < nAddrs)
    ∧ (makesliceOK maxAlloc nAddrs = false →
        DistributeSpendHours maxAlloc RequiredFee BurnFactor inputHours nAddrs haveChange
          = .error .makeSliceLen)
    ∧ DistributeSpendHours maxAlloc RequiredFee BurnFactor inputHours nAddrs haveChange
        ≠ .error .calcMismatch
    ∧ DistributeSpendHours maxAlloc RequiredFee BurnFactor inputHours nAddrs haveChange
        ≠ .error .indexOutOfRange
    ∧ DistributeSpendHours maxAlloc RequiredFee BurnFactor inputHours nAddrs haveChange
        ≠ .error .divByZero := by
  have hcle := changeOf_le haveChange (inputHours - RequiredFee inputHours BurnFactor)
  have hmod := Nat.mod_lt (inputHours - RequiredFee inputHours BurnFactor
      - changeOf haveChange (inputHours - RequiredFee inputHours BurnFactor)) hn
  have hrefused := DistributeSpendHours_refused maxAlloc RequiredFee BurnFactor inputHours nAddrs
    haveChange hn
  have hnot : ∀ e : Fault, e ≠ .makeSliceLen →
      DistributeSpendHours maxAlloc RequiredFee BurnFactor inputHours nAddrs haveChange
        ≠ .error e := by
    intro e he
    cases hm : makesliceOK maxAlloc nAddrs with
    | true =>
      rw [DistributeSpendHours_closed maxAlloc RequiredFee BurnFactor inputHours nAddrs
        haveChange hin hn hm hfee]
      simp
    | false =>
      rw [hrefused hm]
      intro h
      exact he (Except.error.inj h).symm
  refine ⟨?_, hrefused, hnot _ (by decide), hnot _ (by decide), hnot _ (by decide)⟩
  intro hmake
  refine ⟨_, _, _, DistributeSpendHours_closed maxAlloc RequiredFee BurnFactor inputHours nAddrs
    haveChange hin hn hmake hfee, (subU64_of_le hfee hin).symm, ?_, ?_⟩
  · simp only [List.length_append, List.length_replicate]
    omega
  · rw [subU64_of_le hcle (by omega), (extraHours_eq _ nAddrs (by omega)).2]
    exact hmod

/-- Witness of the amended C13: 22 input hours, burn factor 2, three
destinations and a change output, with the allocation limit `2^48`. -/
theorem spend_hours_returns_normally_witness :
    DistributeSpendHours (2 ^ 48) ceilFee 2 22 3 true = .ok (6, [2, 2, 1], 11)
    ∧ ∃ changeHours addrHours spendHours,
        DistributeSpendHours (2 ^ 48) ceilFee 2 22 3 true
          = .ok (changeHours, addrHours, spendHours)
        ∧ spendHours = subU64 22 (ceilFee 22 2)
        ∧ addrHours.length = 3
        ∧ subU64 (subU64 spendHours changeHours)
            (mulU64 (subU64 spendHours changeHours / 3) 3) < 3 :=
  ⟨by decide,
    (spend_hours_returns_normally (2 ^ 48) ceilFee 2 22 3 true
      (by decide) (by decide) (by decide)).1 (by decide)⟩

/-- C14: for hours that fit 64 unsigned bits, `DistributeCoinHoursProportional`
never returns one of its internal-defect errors, nor panics; and whenever the
proportional phase is reached (valid coins, more hours than outputs, total and
hours convertible), the proportional loop passes all its checks, the assigned
hours are the sum of the floors and at most the hours, the hours left over
are at most `len(coins)`, and every floor is at most the hours. -/
theorem no_internal_defect (coins : List Nat) (hours : Nat) (hh : hours < U64) :
    DistributeCoinHoursProportional coins hours ≠ .error .assignedExceeds
    ∧ DistributeCoinHoursProportional coins hours ≠ .error .remainingExceeds
    ∧ DistributeCoinHoursProportional coins hours ≠ .error .fracNotUint64
    ∧ DistributeCoinHoursProportional coins hours ≠ .error .divByZero
    ∧ DistributeCoinHoursProportional coins hours ≠ .error .indexOutOfRange
    ∧ (coins ≠ [] → (∀ c ∈ coins, 0 < c ∧ c < I64) → coins.sum < I64 →
        coins.length < hours → hours - coins.length < I64 →
        propLoop ((hours - coins.length : Nat) : Int) (coins.sum : Int)
            (coins.map (fun (c : Nat) => (c : Int))) 0 (List.replicate coins.length 1) 0
          = .ok (coins.map (fun c => 1 + c * (hours - coins.length) / coins.sum),
              (coins.map (fun c => c * (hours - coins.length) / coins.sum)).sum)
        ∧ (coins.map (fun c => c * (hours - coins.length) / coins.sum)).sum
            ≤ hours - coins.length
        ∧ hours - coins.length
            - (coins.map (fun c => c * (hours - coins.length) / coins.sum)).sum ≤ coins.length
        ∧ ∀ c ∈ coins, c * (hours - coins.length) / coins.sum < U64) := by
  have hkinds := outcome_kinds coins hours hh
  refine ⟨?_, ?_, ?_, ?_, ?_, ?_⟩
  · rcases hkinds with ⟨r, h⟩ | h | h | h | h <;> rw [h] <;> simp
  · rcases hkinds with ⟨r, h⟩ | h | h | h | h <;> rw [h] <;> simp
  · rcases hkinds with ⟨r, h⟩ | h | h | h | h <;> rw [h] <;> simp
  · rcases hkinds with ⟨r, h⟩ | h | h | h | h <;> rw [h] <;> simp
  · rcases hkinds with ⟨r, h⟩ | h | h | h | h <;> rw [h] <;> simp
  · intro hne hall hT63 _ hh63
    have hIU : I64 + 2 ≤ U64 := by decide
    obtain ⟨h1, h2, h3, h4⟩ :=
      propLoop_valid coins (hours - coins.length) hne ⟨hall, by omega⟩ hh63
    refine ⟨h1, h2, h3, ?_⟩
    intro c hc
    have := h4 c hc
    omega

/-- Witness of C14: `coins = [10, 20, 30]` with 6 hours reaches the
proportional phase with 3 hours, assigns 2 of them and leaves 1 over. -/
theorem no_internal_defect_witness :
    propLoop ((6 - [10, 20, 30].length : Nat) : Int) (([10, 20, 30] : List Nat).sum : Int)
        (([10, 20, 30] : List Nat).map (fun (c : Nat) => (c : Int))) 0
        (List.replicate [10, 20, 30].length 1) 0
      = .ok ([10, 20, 30].map (fun c => 1 + c * (6 - [10, 20, 30].length) / [10, 20, 30].sum),
          ([10, 20, 30].map (fun c => c * (6 - [10, 20, 30].length) / [10, 20, 30].sum)).sum)
    ∧ ([10, 20, 30].map (fun c => c * (6 - [10, 20, 30].length) / [10, 20, 30].sum)).sum
        ≤ 6 - [10, 20, 30].length
    ∧ 6 - [10, 20, 30].length
        - ([10, 20, 30].map (fun c => c * (6 - [10, 20, 30].length) / [10, 20, 30].sum)).sum
        ≤ [10, 20, 30].length
    ∧ ∀ c ∈ [10, 20, 30], c * (6 - [10, 20, 30].length) / [10, 20, 30].sum < U64 :=
  (no_internal_defect [10, 20, 30] 6 (by decide)).2.2.2.2.2
    (by decide) (by decide) (by decide) (by decide) (by decide)

/-- C18: for hours that fit 64 unsigned bits, `DistributeCoinHoursProportional`
returns a result if and only if there is at least one coin, every coin `c`
has `1 ≤ c ≤ 2^63 - 1`, the total `T` is at most `2^64 - 1`, and either
`hours ≤ n`, or both `T ≤ 2^63 - 1` and `hours - n ≤ 2^63 - 1`. -/
theorem success_condition (coins : List Nat) (hours : Nat) (hh : hours < U64) :
    (∃ r, DistributeCoinHoursProportional coins hours = .ok r)
    ↔ (1 ≤ coins.length
        ∧ (∀ c ∈ coins, 1 ≤ c ∧ c ≤ 2 ^ 63 - 1)
        ∧ coins.sum ≤ 2 ^ 64 - 1
        ∧ (hours ≤ coins.length
            ∨ (coins.sum ≤ 2 ^ 63 - 1 ∧ hours - coins.length ≤ 2 ^ 63 - 1))) := by
  have hI : I64 = 2 ^ 63 := rfl
  have hU : U64 = 2 ^ 64 := rfl
  constructor
  · rintro ⟨r, hr⟩
    obtain ⟨hne, hvalid⟩ := valid_of_ok hr
    have hlen : 1 ≤ coins.length := List.length_pos.mpr hne
    refine ⟨hlen, ?_, by have := hvalid.2; omega, ?_⟩
    · intro c hc
      have := hvalid.1 c hc
      omega
    · rcases Nat.lt_or_ge hours coins.length with hlt | hge
      · exact Or.inl (le_of_lt hlt)
      · rw [DistributeCoinHoursProportional_plenty coins hours hne hvalid hh hge] at hr
        split at hr
        · rename_i hcond
          rcases hcond with h0 | ⟨h1, h2⟩
          · exact Or.inl (by omega)
          · exact Or.inr ⟨by omega, by omega⟩
        · exact absurd hr (by simp)
  · rintro ⟨hlen, hall, hsum, hcond⟩
    have hne : coins ≠ [] := List.length_pos.mp hlen
    have hvalid : (∀ c ∈ coins, 0 < c ∧ c < I64) ∧ coins.sum < U64 := by
      refine ⟨?_, by omega⟩
      intro c hc
      have := hall c hc
      omega
    rcases Nat.lt_or_ge hours coins.length with hlt | hge
    · rcases Nat.eq_zero_or_pos hours with h0 | h0
      · subst h0
        exact ⟨_, DistributeCoinHoursProportional_zero coins hne hvalid⟩
      · exact ⟨_, DistributeCoinHoursProportional_scarce coins hours hvalid h0 hlt⟩
    · rw [DistributeCoinHoursProportional_plenty coins hours hne hvalid hh hge]
      have hc : hours - coins.length = 0
          ∨ (coins.sum < I64 ∧ hours - coins.length < I64) := by
        rcases hcond with h1 | ⟨h1, h2⟩
        · exact Or.inl (by omega)
        · exact Or.inr ⟨by omega, by omega⟩
      rw [if_pos hc]
      exact ⟨_, rfl⟩

/-- Witness of C18: the coins `[2^63 - 1, 1]` total `2^63`; they are accepted
with 2 hours and rejected with 3. -/
theorem success_condition_witness :
    DistributeCoinHoursProportional [2 ^ 63 - 1, 1] 2 = .ok [1, 1]
    ∧ DistributeCoinHoursProportional [2 ^ 63 - 1, 1] 3 = .error .int64Range
    ∧ ((∃ r, DistributeCoinHoursProportional [2 ^ 63 - 1, 1] 3 = .ok r)
      ↔ (1 ≤ [2 ^ 63 - 1, 1].length
          ∧ (∀ c ∈ [2 ^ 63 - 1, 1], 1 ≤ c ∧ c ≤ 2 ^ 63 - 1)
          ∧ [2 ^ 63 - 1, 1].sum ≤ 2 ^ 64 - 1
          ∧ (3 ≤ [2 ^ 63 - 1, 1].length
              ∨ ([2 ^ 63 - 1, 1].sum ≤ 2 ^ 63 - 1 ∧ 3 - [2 ^ 63 - 1, 1].length ≤ 2 ^ 63 - 1)))) :=
  ⟨by decide, by decide, success_condition [2 ^ 63 - 1, 1] 3 (by decide)⟩

/-- C19: the first remainder pass of `DistributeCoinHoursProportional` never
changes anything: the state that reaches it holds, for every output, one hour
plus the floor of its share, so the pass returns it as it is with the same
hours left; and for all coins and hours the function has the outcome of the
same function with that pass removed. -/
theorem first_pass_is_noop (coins : List Nat) (hours : Nat) (hh : hours < U64) :
    DistributeCoinHoursProportional coins hours
      = DistributeCoinHoursProportionalNoZeroPass coins hours
    ∧ (∀ x ∈ coins.map (fun c => 1 + c * (hours - coins.length) / coins.sum), 1 ≤ x)
    ∧ ∀ remainingHours : Nat,
        zeroPass coins.length 0 remainingHours
            (coins.map (fun c => 1 + c * (hours - coins.length) / coins.sum))
          = .ok (coins.map (fun c => 1 + c * (hours - coins.length) / coins.sum),
              remainingHours) := by
  refine ⟨noZeroPass_eq coins hours hh, ?_, ?_⟩
  · intro x hx
    have := shares_ne_zero coins (hours - coins.length) x hx
    omega
  · intro remainingHours
    exact zeroPass_shares coins (hours - coins.length) remainingHours

/-- Witness of C19: `coins = [10, 20, 30]` with 6 hours gives `[2, 2, 2]` with
and without the first pass. -/
theorem first_pass_is_noop_witness :
    DistributeCoinHoursProportionalNoZeroPass [10, 20, 30] 6 = .ok [2, 2, 2]
    ∧ DistributeCoinHoursProportional [10, 20, 30] 6
        = DistributeCoinHoursProportionalNoZeroPass [10, 20, 30] 6 :=
  ⟨by decide, (first_pass_is_noop [10, 20, 30] 6 (by decide)).1⟩

/-- C15: for every sequence of coin amounts, the stable sort of
`newUnsortableHighToLowUint64(items)` through `Less` and `Swap` leaves
`indices` a permutation of `0 .. len(items) - 1`, with `items[k]` the original
`items[indices[k]]` at every position `k`, the sorted items non-increasing
(any earlier one is at least any later one, so `items[k] ≥ items[k+1]`), and,
for positions `k < l` holding equal values, `indices[k] < indices[l]`. -/
theorem stable_sort_result (items : List Nat) :
    (sortStable (newUnsortableHighToLowUint64 items)).indices.Perm (List.range items.length)
    ∧ (sortStable (newUnsortableHighToLowUint64 items)).items.length = items.length
    ∧ (sortStable (newUnsortableHighToLowUint64 items)).indices.length = items.length
    ∧ (∀ (k idx : Nat),
        (sortStable (newUnsortableHighToLowUint64 items)).indices[k]? = some idx →
        (sortStable (newUnsortableHighToLowUint64 items)).items[k]? = items[idx]?)
    ∧ (sortStable (newUnsortableHighToLowUint64 items)).items.Pairwise (fun a b => a ≥ b)
    ∧ (∀ (k a b : Nat),
        (sortStable (newUnsortableHighToLowUint64 items)).items[k]? = some a →
        (sortStable (newUnsortableHighToLowUint64 items)).items[k + 1]? = some b → a ≥ b)
    ∧ (∀ (k l a ik il : Nat), k < l →
        (sortStable (newUnsortableHighToLowUint64 items)).items[k]? = some a →
        (sortStable (newUnsortableHighToLowUint64 items)).items[l]? = some a →
        (sortStable (newUnsortableHighToLowUint64 items)).indices[k]? = some ik →
        (sortStable (newUnsortableHighToLowUint64 items)).indices[l]? = some il →
        ik < il) := by
  obtain ⟨hitems, hindices⟩ := sorted_fields items
  have hperm := sorted_pairs_perm items
  have hsorted := sorted_pairs_before items
  have hlen := length_sorted_pairs items
  rw [hitems, hindices]
  generalize insertAll [] (items.zip (List.range items.length)) = ps at hperm hsorted hlen
  have hdesc : (ps.map Prod.fst).Pairwise (fun a b => a ≥ b) := by
    rw [List.pairwise_map]
    refine hsorted.imp ?_
    intro p q hpq
    unfold Before at hpq
    omega
  refine ⟨?_, by simp [hlen], by simp [hlen], ?_, hdesc, ?_, ?_⟩
  · have h := hperm.map Prod.snd
    rw [List.map_snd_zip _ _ (by simp)] at h
    exact h
  · intro k idx hk
    rw [List.getElem?_map] at hk ⊢
    cases hps : ps[k]? with
    | none => rw [hps] at hk; simp at hk
    | some p =>
      rw [hps] at hk
      have hidx : p.2 = idx := by simpa using hk
      have hmem : p ∈ ps := List.mem_iff_getElem?.mpr ⟨k, hps⟩
      have := mem_zip_range (hperm.mem_iff.mp hmem)
      rw [hidx] at this
      rw [this]
      rfl
  · intro k a b hk hk1
    exact pairwise_getElem? hdesc (Nat.lt_succ_self k) hk hk1
  · intro k l a ik il hkl hka hla hki hli
    rw [List.getElem?_map] at hka hla hki hli
    cases hpk : ps[k]? with
    | none => rw [hpk] at hka; simp at hka
    | some p =>
      cases hpl : ps[l]? with
      | none => rw [hpl] at hla; simp at hla
      | some q =>
        rw [hpk] at hka hki
        rw [hpl] at hla hli
        have h1 : p.1 = a := by simpa using hka
        have h2 : q.1 = a := by simpa using hla
        have h3 : p.2 = ik := by simpa using hki
        have h4 : q.2 = il := by simpa using hli
        have hb := pairwise_getElem? hsorted hkl hpk hpl
        unfold Before at hb
        omega

/-- C16: with at least one destination and a fee that does not exceed the
input, no unsigned 64-bit operation in `DistributeSpendHours` wraps: the
variant in which the subtraction `inputHours - feeHours`, the increment of
`changeHours`, the subtraction `remainingHours - changeHours`, the product
`addrHoursShare * nAddrs`, the subtraction giving `extraHours`, each
`addrHours[i] + 1` and every addition of the running sum `spendHours` are
checked, and stop the call when the value over the unbounded integers does not
fit, has the very outcome of `DistributeSpendHours`, which is never that
stop; and when `make` accepts the length both return the same triple. -/
theorem spend_hours_no_wrap (maxAlloc : Nat) (RequiredFee : Nat → Nat → Nat)
    (BurnFactor : Nat) (inputHours nAddrs : Nat) (haveChange : Bool)
    (hin : inputHours < U64) (hn : 1 ≤ nAddrs)
    (hfee : RequiredFee inputHours BurnFactor ≤ inputHours) :
    DistributeSpendHoursChecked maxAlloc RequiredFee BurnFactor inputHours nAddrs haveChange
      = DistributeSpendHours maxAlloc RequiredFee BurnFactor inputHours nAddrs haveChange
    ∧ DistributeSpendHoursChecked maxAlloc RequiredFee BurnFactor inputHours nAddrs haveChange
        ≠ .error .wrapped
    ∧ (makesliceOK maxAlloc nAddrs = true →
        ∃ changeHours addrHours spendHours,
          DistributeSpendHoursChecked maxAlloc RequiredFee BurnFactor inputHours nAddrs
              haveChange = .ok (changeHours, addrHours, spendHours)
          ∧ DistributeSpendHours maxAlloc RequiredFee BurnFactor inputHours nAddrs haveChange
              = .ok (changeHours, addrHours, spendHours)) := by
  cases hm : makesliceOK maxAlloc nAddrs with
  | true =>
    have hc := DistributeSpendHoursChecked_closed maxAlloc RequiredFee BurnFactor inputHours
      nAddrs haveChange hin hn hm hfee
    have hd := DistributeSpendHours_closed maxAlloc RequiredFee BurnFactor inputHours nAddrs
      haveChange hin hn hm hfee
    refine ⟨hc, ?_, fun _ => ⟨_, _, _, hc.trans hd, hd⟩⟩
    rw [hc, hd]
    simp
  | false =>
    have hc := DistributeSpendHoursChecked_refused maxAlloc RequiredFee BurnFactor inputHours
      nAddrs haveChange hin hn hm hfee
    have hd := DistributeSpendHours_refused maxAlloc RequiredFee BurnFactor inputHours nAddrs
      haveChange hn hm
    refine ⟨hc.trans hd.symm, ?_, fun h => absurd h (by simp)⟩
    rw [hc]
    simp

/-- Witness of C16: 22 input hours, burn factor 2, three destinations and a
change output; and, for contrast, a fee above the input, which the theorem
excludes, where the first subtraction does wrap. -/
theorem spend_hours_no_wrap_witness :
    DistributeSpendHoursChecked (2 ^ 48) ceilFee 2 22 3 true = .ok (6, [2, 2, 1], 11)
    ∧ DistributeSpendHoursChecked (2 ^ 48) (fun _ _ => 23) 2 22 3 true = .error .wrapped
    ∧ DistributeSpendHoursChecked (2 ^ 48) ceilFee 2 22 3 true
        = DistributeSpendHours (2 ^ 48) ceilFee 2 22 3 true :=
  ⟨by decide, by decide,
    (spend_hours_no_wrap (2 ^ 48) ceilFee 2 22 3 true (by decide) (by decide) (by decide)).1⟩

/-- C20: bounded unfairness.  For every result `r` and all indices `i`, `j`
with `coins[i] ≥ coins[j]`, `r[j] ≤ r[i] + 1`; and if in addition `i < j`,
then `r[j] ≤ r[i]`. -/
theorem bounded_unfairness (coins : List Nat) (hours : Nat) (r : List Nat)
    (hh : hours < U64)
    (hr : DistributeCoinHoursProportional coins hours = .ok r) :
    r.length = coins.length
    ∧ ∀ (i j : Nat) (hi : i < coins.length) (hj : j < coins.length),
        coins[i] ≥ coins[j] →
          r.getD j 0 ≤ r.getD i 0 + 1 ∧ (i < j → r.getD j 0 ≤ r.getD i 0) := by
  refine ⟨?_, ?_⟩
  · obtain ⟨hne, hvalid⟩ := valid_of_ok hr
    rcases Nat.lt_or_ge hours coins.length with hlt | hge
    · rcases Nat.eq_zero_or_pos hours with h0 | h0
      · subst h0
        rw [DistributeCoinHoursProportional_zero coins hne hvalid] at hr
        rw [← Except.ok.inj hr]; simp
      · rw [DistributeCoinHoursProportional_scarce coins hours hvalid h0 hlt] at hr
        rw [← Except.ok.inj hr, length_markAll]; simp
    · rw [(plenty_result hh hge hr).1, length_bump, length_shares]
  · intro i j hi hj hc
    have h := compare_hours hh hr i j hi hj hc
    exact ⟨h.1, h.2.1⟩

/-- Witness of C20: `coins = [1, 2]` with 3 hours gives `[2, 1]`: the smaller
output is one hour ahead of the larger, not more. -/
theorem bounded_unfairness_witness :
    DistributeCoinHoursProportional [1, 2] 3 = .ok [2, 1]
    ∧ ([2, 1].length = [1, 2].length
      ∧ ∀ (i j : Nat) (hi : i < [1, 2].length) (hj : j < [1, 2].length),
          [1, 2][i] ≥ [1, 2][j] →
            [2, 1].getD j 0 ≤ [2, 1].getD i 0 + 1 ∧ (i < j → [2, 1].getD j 0 ≤ [2, 1].getD i 0)) :=
  ⟨by decide, bounded_unfairness [1, 2] 3 [2, 1] (by decide) (by decide)⟩

/-- C17, as stated, fails: `coins = [1, 2]` with 3 hours gives `[2, 1]`, so
the output with more coins receives fewer hours. -/
theorem more_coins_fewer_hours :
    DistributeCoinHoursProportional [1, 2] 3 = .ok [2, 1]
    ∧ ¬ (∀ (coins : List Nat) (hours : Nat) (r : List Nat), hours < U64 →
          DistributeCoinHoursProportional coins hours = .ok r →
          ∀ (i j : Nat) (hi : i < coins.length) (hj : j < coins.length),
            coins[i] > coins[j] → r.getD i 0 ≥ r.getD j 0) := by
  refine ⟨by decide, ?_⟩
  intro h
  have := h [1, 2] 3 [2, 1] (by decide) (by decide) 1 0 (by decide) (by decide) (by decide)
  exact absurd this (by decide)

/-- C17, amended: for every result `r` and all indices `i`, `j` with
`coins[i] > coins[j]`, `r[i] + 1 ≥ r[j]`; and `r[i] ≥ r[j]` whenever
`hours ≤ len(coins)`, or `i < j`, or the second remainder pass does not
separate the two, that is, not `j < rem ≤ i`, where `rem` is the number of
hours the floors leave over. -/
theorem more_coins_at_most_one_less (coins : List Nat) (hours : Nat) (r : List Nat)
    (hh : hours < U64)
    (hr : DistributeCoinHoursProportional coins hours = .ok r) :
    ∀ (i j : Nat) (hi : i < coins.length) (hj : j < coins.length),
      coins[i] > coins[j] →
        r.getD i 0 + 1 ≥ r.getD j 0
        ∧ ((hours ≤ coins.length ∨ i < j
            ∨ ¬ (j < hours - coins.length
                    - (coins.map (fun c => c * (hours - coins.length) / coins.sum)).sum
                ∧ hours - coins.length
                    - (coins.map (fun c => c * (hours - coins.length) / coins.sum)).sum ≤ i)) →
          r.getD i 0 ≥ r.getD j 0) := by
  intro i j hi hj hc
  have h := compare_hours hh hr i j hi hj (le_of_lt hc)
  refine ⟨h.1, ?_⟩
  rintro (hle | hij | hsep)
  · exact h.2.2.1 hc hle
  · exact h.2.1 hij
  · rcases Nat.lt_or_ge hours coins.length with hlt | hge
    · exact h.2.2.1 hc (le_of_lt hlt)
    · exact h.2.2.2 hsep hge

/-- Witness of the amended C17: `coins = [2, 1]` with 3 hours gives `[2, 1]`,
and `coins = [1, 2]` with 3 hours gives `[2, 1]`. -/
theorem more_coins_at_most_one_less_witness :
    DistributeCoinHoursProportional [2, 1] 3 = .ok [2, 1]
    ∧ ∀ (i j : Nat) (hi : i < [1, 2].length) (hj : j < [1, 2].length),
      [1, 2][i] > [1, 2][j] →
        [2, 1].getD i 0 + 1 ≥ [2, 1].getD j 0
        ∧ ((3 ≤ [1, 2].length ∨ i < j
            ∨ ¬ (j < 3 - [1, 2].length
                    - ([1, 2].map (fun c => c * (3 - [1, 2].length) / [1, 2].sum)).sum
                ∧ 3 - [1, 2].length
                    - ([1, 2].map (fun c => c * (3 - [1, 2].length) / [1, 2].sum)).sum ≤ i)) →
          [2, 1].getD i 0 ≥ [2, 1].getD j 0) :=
  ⟨by decide, more_coins_at_most_one_less [1, 2] 3 [2, 1] (by decide) (by decide)⟩
end Hours
